import Mathlib

/-!
Verification development for the serato2rekordbox core: the crate-file
section decoder (`crateParser`), the embedded tag decoders
(`trackMetaDataParser`), and the playlist tree builder / track
de-duplication of the CLI driver (`cli`).

Byte buffers are modelled as `List Nat`; real buffers hold bytes below
256 (`DataView.getUint8` can return nothing else), which theorems assume
explicitly where it matters.  JavaScript `DataView` reads that would
throw a `RangeError` are modelled as `Option` failures (`none`), and
functions whose TypeScript counterparts `throw` return `Option`/`Except`.
-/

namespace S2R

/-- UTF-16 code units (= `Char.toNat` for the ASCII/BMP strings appearing
here) of a Lean string, used to write the byte/code-unit constants of the
source readably. -/
def strCodes (s : String) : List Nat :=
  s.data.map Char.toNat

/-- `DataView.getUint32(i, false)` (big-endian) against a whole buffer:
fails (JS: throws `RangeError`) unless all four bytes are in range. -/
def readU32 (data : List Nat) (i : Nat) : Option Nat :=
  match data[i]?, data[i+1]?, data[i+2]?, data[i+3]? with
  | some a, some b, some c, some d => some (((a * 256 + b) * 256 + c) * 256 + d)
  | _, _, _, _ => none

/-! ## crateParser: the generic section decoder -/

/-- A raw section: `interface Section` of `crateParser.ts` (the `data`
DataView is represented by the pair `dataOffset`/`dataSize` into the
underlying buffer, exactly as the JS view is). -/
structure Section where
  type : List Nat
  offset : Nat
  dataOffset : Nat
  dataSize : Nat
deriving DecidableEq, Repr

/-- `parseSection(data, offset)`: reads the 4-byte tag and the 4-byte
big-endian length at `offset`, then constructs the contents view
`new DataView(data, offset + 8, sectionSize)` — which JS rejects
(RangeError) exactly when `offset + 8 + sectionSize` exceeds the whole
buffer's length.  No check against any enclosing section is performed. -/
def parseSection (data : List Nat) (offset : Nat) : Option Section :=
  match data[offset]?, data[offset+1]?, data[offset+2]?, data[offset+3]?,
      readU32 data (offset + 4) with
  | some t0, some t1, some t2, some t3, some sectionSize =>
    if offset + 8 + sectionSize ≤ data.length then
      some { type := [t0, t1, t2, t3], offset := offset,
             dataOffset := offset + 8, dataSize := sectionSize }
    else none
  | _, _, _, _, _ => none

/-- The byte slice a section's contents `DataView` covers. -/
def sectionSlice (data : List Nat) (s : Section) : List Nat :=
  (data.drop s.dataOffset).take s.dataSize

/-- `parseString16(data, size)`: UTF-16BE code units until the first zero
unit or the end of the view; a trailing odd byte makes `getUint16` read
past the view (JS: `RangeError`), hence `none`. -/
def parseString16 : List Nat → Option (List Nat)
  | [] => some []
  | [_] => none
  | a :: b :: rest =>
    let c := a * 256 + b
    if c = 0 then some []
    else (parseString16 rest).map (c :: ·)

/-- One step of `parseInt8`'s loop: `value |= data.getUint8(i) << (i * 8)`
with JavaScript 32-bit bitwise semantics (shift count is taken mod 32,
the result lives in 32 bits); the accumulator is kept as the unsigned
32-bit pattern. -/
def parseInt8Go : List Nat → Nat → Nat → Nat
  | [], _, acc => acc
  | b :: rest, i, acc =>
    parseInt8Go rest (i + 1) (acc ||| ((b <<< (i * 8 % 32)) % 4294967296))

/-- Signed 32-bit reinterpretation of a bit pattern, as a JS number. -/
def toInt32 (n : Nat) : Int :=
  if n % 4294967296 < 2147483648 then ((n % 4294967296 : Nat) : Int)
  else ((n % 4294967296 : Nat) : Int) - 4294967296

/-- `parseInt8(data, size)` over the section's contents slice. -/
def parseInt8 (slice : List Nat) : Int :=
  toInt32 (parseInt8Go slice 0 0)

/-- Scalar node values: `value: string | number | null` of `interface Node`
(strings are their UTF-16 code-unit sequences). -/
inductive Value where
  | str : List Nat → Value
  | num : Int → Value
  | null : Value
deriving DecidableEq, Repr

/-- `interface Node` of `crateParser.ts`. -/
inductive Node where
  | mk : List Nat → Value → List Node → Node

/-- The node's 4-character tag. -/
def Node.type : Node → List Nat
  | .mk t _ _ => t

/-- The node's scalar value. -/
def Node.value : Node → Value
  | .mk _ v _ => v

/-- The node's child nodes. -/
def Node.children : Node → List Node
  | .mk _ _ c => c

def vrsnTag : List Nat := strCodes "vrsn"
def tvcnTag : List Nat := strCodes "tvcn"
def tvcwTag : List Nat := strCodes "tvcw"
def ptrkTag : List Nat := strCodes "ptrk"
def brevTag : List Nat := strCodes "brev"
def otrkTag : List Nat := strCodes "otrk"

/-- The loop of `parseSectionNodes(section)`, reading sibling sections
from `offset` up to `endOffset` and recursing into containers.  The
source recursion terminates because every inner call starts at least 8
bytes further into the (bounded) buffer; the `fuel` argument (always
called with `data.length + 1`, which exceeds the longest possible chain
of nested calls, each advancing the start offset by at least 8) makes
that explicit while keeping the definition structurally recursive. -/
def parseSectionNodesGo (data : List Nat) : Nat → Nat → Nat → Option (List Node)
  | 0, _, _ => none
  | fuel + 1, offset, endOffset =>
    if offset < endOffset then
      match parseSection data offset with
      | none => none
      | some sub =>
        if sub.type = vrsnTag ∨ sub.type = tvcnTag ∨ sub.type = tvcwTag ∨
            sub.type = ptrkTag then
          match parseString16 (sectionSlice data sub) with
          | none => none
          | some s =>
            match parseSectionNodesGo data fuel (offset + 8 + sub.dataSize) endOffset with
            | none => none
            | some rest => some (Node.mk sub.type (Value.str s) [] :: rest)
        else if sub.type = brevTag then
          match parseSectionNodesGo data fuel (offset + 8 + sub.dataSize) endOffset with
          | none => none
          | some rest =>
            some (Node.mk sub.type (Value.num (parseInt8 (sectionSlice data sub))) [] :: rest)
        else
          match parseSectionNodesGo data fuel sub.dataOffset (sub.dataOffset + sub.dataSize) with
          | none => none
          | some children =>
            match parseSectionNodesGo data fuel (offset + 8 + sub.dataSize) endOffset with
            | none => none
            | some rest => some (Node.mk sub.type Value.null children :: rest)
    else some []

/-- `parseSectionNodes(section)`. -/
def parseSectionNodes (data : List Nat) (s : Section) : Option (List Node) :=
  parseSectionNodesGo data (data.length + 1) s.dataOffset (s.dataOffset + s.dataSize)

/-! ## crateParser: the crate document parser -/

/-- JavaScript `s.split(sep)` for a single-character separator, on
character lists. -/
def splitChar (sep : Char) : List Char → List (List Char)
  | [] => [[]]
  | c :: rest =>
    if c = sep then [] :: splitChar sep rest
    else
      match splitChar sep rest with
      | [] => [[c]]
      | g :: gs => (c :: g) :: gs

/-- JavaScript `s.split('%%')` on character lists (leftmost match first,
as `String.prototype.split` scans). -/
def splitPct : List Char → List (List Char)
  | [] => [[]]
  | '%' :: '%' :: rest => [] :: splitPct rest
  | c :: rest =>
    match splitPct rest with
    | [] => [[c]]
    | g :: gs => (c :: g) :: gs

/-- `path.split('/').pop()?.split('.').shift()` followed by
`.split('%%')`: the crate's hierarchical name as derived in
`parseCrate`. -/
def crateNameOfPath (path : List Char) : List (List Char) :=
  splitPct (((splitChar '.' ((splitChar '/' path).getLastD [])).headD []))

/-- `findNode(nodeList, type)`. -/
def findNode (nodes : List Node) (t : List Nat) : Option Node :=
  nodes.find? (fun n => n.type == t)

/-- `interface CrateTrack`; the `path` field receives whatever value the
found `ptrk` node carries (the source casts it with `as string`). -/
structure CrateTrack where
  path : Value
deriving DecidableEq, Repr

/-- `interface Crate`. -/
structure Crate where
  name : List (List Char)
  version : List Nat
  tracks : List CrateTrack

/-- The magic version string `'1.0/Serato ScratchLive Crate'`. -/
def crateMagic : List Nat := strCodes "1.0/Serato ScratchLive Crate"

/-- The track-collecting loop of `parseCrate`: every top-level `otrk`
node must have a `ptrk` child (`findNodeOrThrow`), whose value becomes a
track; other tags are skipped. -/
def collectTracks : List Node → Except String (List CrateTrack)
  | [] => .ok []
  | n :: rest =>
    if n.type = otrkTag then
      match findNode n.children ptrkTag with
      | none => .error "Failed to parse crate file: Node type 'ptrk' not found"
      | some c => (collectTracks rest).map (fun ts => ⟨c.value⟩ :: ts)
    else collectTracks rest

/-- `parseCrate(path)` on an already-read buffer: decode all top-level
sections (the root pseudo-section covers the whole buffer), require a
first `vrsn` node with the exact magic value, then collect `otrk`
tracks.  Failures are the thrown parse errors of the source. -/
def parseCrate (path : List Char) (data : List Nat) : Except String Crate :=
  match parseSectionNodesGo data (data.length + 1) 0 data.length with
  | none => .error "RangeError: Out of bounds section read"
  | some [] => .error "Failed to parse crate file: No sections found"
  | some (version :: rest) =>
    if version.type = vrsnTag then
      if version.value = Value.str crateMagic then
        match collectTracks rest with
        | .error e => .error e
        | .ok tracks =>
          .ok { name := crateNameOfPath path, version := crateMagic, tracks := tracks }
      else .error "Failed to parse crate file: Unsupported crate version"
    else .error "Failed to parse crate file: Expected node type 'vrsn'"

/-! ## C1: no bound check against the enclosing section -/

/-- A 28-byte buffer: a top-level `otrk` container of declared size 12
(contents bytes 8..19), containing a `ptrk` section of declared size 8 —
whose contents (bytes 16..23) extend 4 bytes past the `otrk` section's
end —, followed by a top-level `uadd` section of size 0 (bytes 20..27,
whose header bytes 20..23 are the very bytes the `ptrk` payload also
covers). -/
def c1buf : List Nat :=
  strCodes "otrk" ++ [0, 0, 0, 12] ++ strCodes "ptrk" ++ [0, 0, 0, 8] ++
    [0, 65, 0, 66] ++ strCodes "uadd" ++ [0, 0, 0, 0]

/-- C1: the claim fails on the code: a section whose declared 4-byte
big-endian length exceeds the bytes remaining in its enclosing section is
NOT rejected — the decoder checks declared lengths only against the whole
buffer.  On `c1buf` the inner `ptrk` section declares 8 bytes while only
4 remain in the enclosing `otrk` section (their views end at 24 resp.
20), yet decoding succeeds and the `ptrk` string value contains the code
units 30049 and 25700 read from bytes 20..23 — bytes of the following
`uadd` section, outside the enclosing section's range.  (The spec itself
flags this as a required hardening the original implementation lacks.) -/
theorem c1_no_truncation_check :
    parseSection c1buf 0 = some ⟨otrkTag, 0, 8, 12⟩ ∧
    parseSection c1buf 8 = some ⟨ptrkTag, 8, 16, 8⟩ ∧
    16 + 8 > 8 + 12 ∧
    parseSectionNodesGo c1buf (c1buf.length + 1) 0 c1buf.length =
      some [Node.mk otrkTag Value.null
              [Node.mk ptrkTag (Value.str [65, 66, 30049, 25700]) []],
            Node.mk (strCodes "uadd") Value.null []] :=
  ⟨rfl, rfl, by omega, rfl⟩

/-! ## C3: a bad or missing version node is a hard failure -/

/-- The version check of `parseCrate` as a boolean: some first node
exists, is tagged `vrsn`, and carries exactly the magic string. -/
def versionOk (nodes : List Node) : Bool :=
  match nodes with
  | [] => false
  | n :: _ => decide (n.type = vrsnTag) && decide (n.value = Value.str crateMagic)

/-- C3: whenever the decoded top-level node list has no first node with
tag `vrsn` and exact magic value (wrong tag, wrong value, or no nodes at
all), `parseCrate` returns an error and no `Crate`. -/
theorem c3_bad_version_is_error (path : List Char) (data : List Nat) (nodes : List Node)
    (hdec : parseSectionNodesGo data (data.length + 1) 0 data.length = some nodes)
    (hv : versionOk nodes = false) :
    ∃ e, parseCrate path data = Except.error e := by
  match nodes, hv with
  | [], _ =>
    exact ⟨"Failed to parse crate file: No sections found", by simp only [parseCrate, hdec]⟩
  | n :: rest, hv =>
    rw [versionOk, Bool.and_eq_false_iff] at hv
    by_cases ht : n.type = vrsnTag
    · have hval : ¬n.value = Value.str crateMagic := by
        rcases hv with hv | hv
        · exact absurd ht (by simpa using hv)
        · simpa using hv
      exact ⟨"Failed to parse crate file: Unsupported crate version",
        by simp only [parseCrate, hdec, if_pos ht, if_neg hval]⟩
    · exact ⟨"Failed to parse crate file: Expected node type 'vrsn'",
        by simp only [parseCrate, hdec, if_neg ht]⟩

/-- Witness for C3 at the empty buffer: decoding yields no nodes and
`parseCrate` fails. -/
theorem c3_witness :
    parseSectionNodesGo ([] : List Nat) 1 0 0 = some [] ∧ versionOk [] = false ∧
    ∃ e, parseCrate [] [] = Except.error e :=
  ⟨rfl, rfl, c3_bad_version_is_error [] [] [] rfl rfl⟩

/-! ## C2: well-formed crates yield exactly the otrk/ptrk tracks -/

/-- Whether a value is a scalar string. -/
def Value.isStr : Value → Bool
  | .str _ => true
  | _ => false

/-- A track-entry node carries a required scalar-string `ptrk` child. -/
def hasPtrkString (n : Node) : Bool :=
  match findNode n.children ptrkTag with
  | some c => c.value.isStr
  | none => false

/-- The tracks the spec expects: one per `otrk`-tagged node, in source
order, carrying the value of its `ptrk` child. -/
def trackValues (nodes : List Node) : List CrateTrack :=
  nodes.filterMap fun n =>
    if n.type = otrkTag then (findNode n.children ptrkTag).map (fun c => ⟨c.value⟩)
    else none

/-- The string contents of the expected tracks (for the distinctness
hypothesis of C2). -/
def ptrkStrings (nodes : List Node) : List (List Nat) :=
  nodes.filterMap fun n =>
    if n.type = otrkTag then
      (findNode n.children ptrkTag).bind fun c =>
        match c.value with
        | .str s => some s
        | _ => none
    else none

theorem collectTracks_ok (nodes : List Node)
    (h : (nodes.all fun n => !(n.type == otrkTag) || hasPtrkString n) = true) :
    collectTracks nodes = .ok (trackValues nodes) ∧
      (trackValues nodes).length = (nodes.countP fun n => n.type == otrkTag) := by
  induction nodes with
  | nil => exact ⟨rfl, rfl⟩
  | cons n rest ih =>
    rw [List.all_cons, Bool.and_eq_true] at h
    obtain ⟨hn, hrest⟩ := h
    obtain ⟨ihe, ihl⟩ := ih hrest
    by_cases ht : n.type = otrkTag
    · have hp : hasPtrkString n = true := by
        rcases Bool.or_eq_true .. |>.mp hn with hb | hb
        · simp [ht] at hb
        · exact hb
      rw [hasPtrkString] at hp
      match hf : findNode n.children ptrkTag with
      | none => rw [hf] at hp; exact absurd hp (by simp)
      | some c =>
        constructor
        · rw [collectTracks, if_pos ht, hf, ihe]
          simp only [trackValues, List.filterMap_cons, ht, if_pos, hf, Option.map_some]
          rfl
        · simp only [trackValues, List.filterMap_cons, ht, if_true, hf, Option.map_some,
            List.countP_cons, List.length_cons]
          rw [trackValues] at ihl
          simp [ihl, ht]
    · constructor
      · rw [collectTracks, if_neg ht]
        simp only [trackValues, List.filterMap_cons, if_neg ht, ihe]
      · simp only [trackValues, List.filterMap_cons, if_neg ht, List.countP_cons]
        rw [trackValues] at ihl
        simp [ihl, ht]

/-- C2: if the decoded top-level nodes are a valid version node followed
by nodes among which every `otrk`-tagged one carries a scalar-string
`ptrk` child, with the `ptrk` strings pairwise distinct, then
`parseCrate` succeeds with exactly one track per `otrk` node, in source
order, carrying the respective `ptrk` values — nodes with other tags
contribute nothing. -/
theorem c2_tracks_in_order (path : List Char) (data : List Nat) (v : Node)
    (rest : List Node)
    (hdec : parseSectionNodesGo data (data.length + 1) 0 data.length = some (v :: rest))
    (ht : v.type = vrsnTag) (hval : v.value = Value.str crateMagic)
    (hok : (rest.all fun n => !(n.type == otrkTag) || hasPtrkString n) = true)
    (_hdi : (ptrkStrings rest).Nodup) :
    parseCrate path data =
      .ok { name := crateNameOfPath path, version := crateMagic,
            tracks := trackValues rest } ∧
    (trackValues rest).length = (rest.countP fun n => n.type == otrkTag) := by
  obtain ⟨he, hl⟩ := collectTracks_ok rest hok
  refine ⟨?_, hl⟩
  simp only [parseCrate, hdec, if_pos ht, if_pos hval, he]

/-- UTF-16BE encoding of a code-unit sequence. -/
def utf16be (units : List Nat) : List Nat :=
  units.flatMap fun c => [c / 256, c % 256]

/-- A crate buffer holding a valid version section and two `otrk`
sections, each with a one-character `ptrk` path (`"A"` resp. `"B"`). -/
def c2buf : List Nat :=
  strCodes "vrsn" ++ [0, 0, 0, 56] ++ utf16be crateMagic ++
  strCodes "otrk" ++ [0, 0, 0, 10] ++ strCodes "ptrk" ++ [0, 0, 0, 2] ++ [0, 65] ++
  strCodes "otrk" ++ [0, 0, 0, 10] ++ strCodes "ptrk" ++ [0, 0, 0, 2] ++ [0, 66]

/-- The nodes following the version node in `c2buf`. -/
def c2rest : List Node :=
  [Node.mk otrkTag Value.null [Node.mk ptrkTag (Value.str [65]) []],
   Node.mk otrkTag Value.null [Node.mk ptrkTag (Value.str [66]) []]]

/-- Witness for C2: on `c2buf` the hypotheses hold and `parseCrate`
returns exactly the two tracks `"A"` and `"B"` in order. -/
theorem c2_witness :
    parseSectionNodesGo c2buf (c2buf.length + 1) 0 c2buf.length =
      some (Node.mk vrsnTag (Value.str crateMagic) [] :: c2rest) ∧
    (c2rest.all fun n => !(n.type == otrkTag) || hasPtrkString n) = true ∧
    (ptrkStrings c2rest).Nodup ∧
    parseCrate ['x'] c2buf =
      .ok { name := [['x']], version := crateMagic,
            tracks := [⟨Value.str [65]⟩, ⟨Value.str [66]⟩] } ∧
    (trackValues c2rest).length = 2 :=
  ⟨rfl, rfl, by decide,
   (c2_tracks_in_order ['x'] c2buf (Node.mk vrsnTag (Value.str crateMagic) [])
     c2rest rfl rfl rfl rfl (by decide)).1,
   (c2_tracks_in_order ['x'] c2buf (Node.mk vrsnTag (Value.str crateMagic) [])
     c2rest rfl rfl rfl rfl (by decide)).2⟩

/-! ## C4: integer scalar leaves are little-endian, not big-endian -/

/-- Modelled from the spec: "a big-endian variable-width unsigned
integer" — byte `i` of a `k`-byte payload weighted `256 ^ (k - 1 - i)`. -/
def bigEndianValue (bytes : List Nat) : Nat :=
  bytes.foldl (fun acc b => acc * 256 + b) 0

/-- The little-endian reading the code actually performs: byte `i`
weighted `256 ^ i`. -/
def littleEndianValue : List Nat → Nat
  | [] => 0
  | b :: rest => b + 256 * littleEndianValue rest

/-- A crate buffer holding a single `brev` section with payload
`[0, 1]`. -/
def c4buf : List Nat := strCodes "brev" ++ [0, 0, 0, 2] ++ [0, 1]

/-- C4 fails on the code: on the two-byte payload `[0, 1]` the decoder
produces 256 (little-endian), while the claimed big-endian reading gives
1. -/
theorem c4_counterexample :
    parseSectionNodesGo c4buf (c4buf.length + 1) 0 c4buf.length =
      some [Node.mk brevTag (Value.num 256) []] ∧
    parseInt8 [0, 1] = 256 ∧
    bigEndianValue [0, 1] = 1 ∧
    (256 : Int) ≠ (1 : Int) :=
  ⟨rfl, rfl, rfl, by decide⟩

theorem lor_mul_pow {k a b : ℕ} (h : a < 2 ^ k) : a ||| (b * 2 ^ k) = a + b * 2 ^ k := by
  induction k generalizing a b with
  | zero =>
    have : a = 0 := Nat.lt_one_iff.mp (by simpa using h)
    simp [this]
  | succ k ih =>
    have ha : Nat.bit (a.testBit 0) (a >>> 1) = a := Nat.bit_testBit_zero_shiftRight_one a
    have hb : b * 2 ^ (k + 1) = Nat.bit false (b * 2 ^ k) := by
      simp [Nat.bit_val]; ring
    have hlt : a >>> 1 < 2 ^ k := by
      have h1 : a >>> 1 = a / 2 := Nat.shiftRight_one a
      have h2 : (2 : ℕ) ^ (k + 1) = 2 * 2 ^ k := by ring
      omega
    calc a ||| (b * 2 ^ (k + 1))
        = Nat.bit (a.testBit 0) (a >>> 1) ||| Nat.bit false (b * 2 ^ k) := by rw [ha, ← hb]
      _ = Nat.bit (a.testBit 0 || false) ((a >>> 1) ||| (b * 2 ^ k)) := Nat.lor_bit _ _ _ _
      _ = Nat.bit (a.testBit 0) ((a >>> 1) + b * 2 ^ k) := by rw [Bool.or_false, ih hlt]
      _ = a + b * 2 ^ (k + 1) := by
          rw [Nat.bit_val]
          have h2 : Nat.bit (a.testBit 0) (a >>> 1) = 2 * (a >>> 1) + (a.testBit 0).toNat :=
            Nat.bit_val _ _
          rw [ha] at h2
          have h4 : b * 2 ^ (k + 1) = 2 * (b * 2 ^ k) := by ring
          omega

/-- C4 amended: the decoder reads the payload as a LITTLE-endian
variable-width unsigned integer — byte `i` weighted `256 ^ i` — exactly,
for payloads of at most 4 bytes whose value stays below `2 ^ 31`
(JavaScript composes the value with 32-bit signed bitwise operations, so
wider or top-bit payloads wrap and sign-extend instead). -/
theorem c4_little_endian (slice : List Nat)
    (hlen : slice.length ≤ 4) (hbytes : ∀ b ∈ slice, b < 256)
    (hsmall : littleEndianValue slice < 2147483648) :
    parseInt8 slice = littleEndianValue slice := by
  match slice, hlen with
  | [], _ =>
    simp [parseInt8, parseInt8Go, littleEndianValue, toInt32]
  | [a], _ =>
    have ha : a < 256 := hbytes a (by simp)
    have h1 : parseInt8Go [a] 0 0 = a := by
      show parseInt8Go [] 1 (0 ||| (a <<< 0 % 4294967296)) = a
      rw [parseInt8Go]
      rw [Nat.shiftLeft_eq, pow_zero, Nat.mul_one, Nat.mod_eq_of_lt (by omega),
        Nat.zero_or]
    rw [parseInt8, h1, toInt32, if_pos]
    · simp [littleEndianValue, Nat.mod_eq_of_lt (show a < 4294967296 by omega)]
    · rw [Nat.mod_eq_of_lt (by omega)]
      simp [littleEndianValue] at hsmall
      omega
  | [a, b], _ =>
    have ha : a < 256 := hbytes a (by simp)
    have hb : b < 256 := hbytes b (by simp)
    have hv : littleEndianValue [a, b] = a + b * 256 := by
      simp [littleEndianValue]; ring
    have h1 : parseInt8Go [a, b] 0 0 = a + b * 256 := by
      show parseInt8Go [b] 1 (0 ||| (a <<< 0 % 4294967296)) = a + b * 256
      rw [Nat.shiftLeft_eq, pow_zero, Nat.mul_one, Nat.mod_eq_of_lt (by omega),
        Nat.zero_or]
      show parseInt8Go [] 2 (a ||| (b <<< 8 % 4294967296)) = a + b * 256
      rw [parseInt8Go, Nat.shiftLeft_eq, Nat.mod_eq_of_lt (by norm_num; omega)]
      exact lor_mul_pow (by norm_num; omega)
    rw [parseInt8, h1, toInt32, if_pos] <;>
      rw [Nat.mod_eq_of_lt (by omega)]
    · omega
    · rw [hv] at hsmall; omega
  | [a, b, c], _ =>
    have ha : a < 256 := hbytes a (by simp)
    have hb : b < 256 := hbytes b (by simp)
    have hc : c < 256 := hbytes c (by simp)
    have hv : littleEndianValue [a, b, c] = a + b * 256 + c * 65536 := by
      simp [littleEndianValue]; ring
    have h1 : parseInt8Go [a, b, c] 0 0 = a + b * 256 + c * 65536 := by
      show parseInt8Go [b, c] 1 (0 ||| (a <<< 0 % 4294967296)) = _
      rw [Nat.shiftLeft_eq, pow_zero, Nat.mul_one, Nat.mod_eq_of_lt (by omega),
        Nat.zero_or]
      show parseInt8Go [c] 2 (a ||| (b <<< 8 % 4294967296)) = _
      rw [Nat.shiftLeft_eq, Nat.mod_eq_of_lt (by norm_num; omega)]
      rw [show a ||| b * 2 ^ 8 = a + b * 2 ^ 8 from lor_mul_pow (by norm_num; omega)]
      show parseInt8Go [] 3 ((a + b * 2 ^ 8) ||| (c <<< 16 % 4294967296)) = _
      rw [parseInt8Go, Nat.shiftLeft_eq, Nat.mod_eq_of_lt (by norm_num; omega)]
      rw [show (a + b * 2 ^ 8) ||| c * 2 ^ 16 = a + b * 2 ^ 8 + c * 2 ^ 16 from
        lor_mul_pow (by norm_num; omega)]
      norm_num
    rw [parseInt8, h1, toInt32, if_pos] <;>
      rw [Nat.mod_eq_of_lt (by omega)]
    · omega
    · rw [hv] at hsmall; omega
  | [a, b, c, d], _ =>
    have ha : a < 256 := hbytes a (by simp)
    have hb : b < 256 := hbytes b (by simp)
    have hc : c < 256 := hbytes c (by simp)
    have hd : d < 256 := hbytes d (by simp)
    have hv : littleEndianValue [a, b, c, d] =
        a + b * 256 + c * 65536 + d * 16777216 := by
      simp [littleEndianValue]; ring
    have h1 : parseInt8Go [a, b, c, d] 0 0 =
        a + b * 256 + c * 65536 + d * 16777216 := by
      show parseInt8Go [b, c, d] 1 (0 ||| (a <<< 0 % 4294967296)) = _
      rw [Nat.shiftLeft_eq, pow_zero, Nat.mul_one, Nat.mod_eq_of_lt (by omega),
        Nat.zero_or]
      show parseInt8Go [c, d] 2 (a ||| (b <<< 8 % 4294967296)) = _
      rw [Nat.shiftLeft_eq, Nat.mod_eq_of_lt (by norm_num; omega)]
      rw [show a ||| b * 2 ^ 8 = a + b * 2 ^ 8 from lor_mul_pow (by norm_num; omega)]
      show parseInt8Go [d] 3 ((a + b * 2 ^ 8) ||| (c <<< 16 % 4294967296)) = _
      rw [Nat.shiftLeft_eq, Nat.mod_eq_of_lt (by norm_num; omega)]
      rw [show (a + b * 2 ^ 8) ||| c * 2 ^ 16 = a + b * 2 ^ 8 + c * 2 ^ 16 from
        lor_mul_pow (by norm_num; omega)]
      show parseInt8Go [] 4
        ((a + b * 2 ^ 8 + c * 2 ^ 16) ||| (d <<< 24 % 4294967296)) = _
      rw [parseInt8Go, Nat.shiftLeft_eq, Nat.mod_eq_of_lt (by norm_num; omega)]
      rw [show (a + b * 2 ^ 8 + c * 2 ^ 16) ||| d * 2 ^ 24 =
          a + b * 2 ^ 8 + c * 2 ^ 16 + d * 2 ^ 24 from
        lor_mul_pow (by norm_num; omega)]
      norm_num
    rw [parseInt8, h1, toInt32, if_pos] <;>
      rw [Nat.mod_eq_of_lt (by omega)]
    · omega
    · rw [hv] at hsmall; omega

/-- Witness for the amended C4 at the payload `[1, 2]`: the decoded value
is `1 + 2 * 256 = 513`. -/
theorem c4_witness :
    ([1, 2] : List Nat).length ≤ 4 ∧ (∀ b ∈ ([1, 2] : List Nat), b < 256) ∧
    littleEndianValue [1, 2] < 2147483648 ∧ parseInt8 [1, 2] = 513 :=
  ⟨by decide, by decide, by decide,
   (c4_little_endian [1, 2] (by decide) (by decide) (by decide)).trans rfl⟩

/-! ## C5: the crate name strips from the FIRST dot, not the extension -/

/-- Modelled from the spec: "stripping the filename's extension" — the
conventional reading removes the part from the LAST dot on (or nothing
when there is no dot). -/
def stripExtSpec (s : List Char) : List Char :=
  if '.' ∈ s then ((s.reverse.dropWhile (· ≠ '.')).drop 1).reverse else s

/-- Modelled from the spec: the claimed hierarchical name — basename,
extension stripped, split on the literal `%%` delimiter. -/
def crateNameSpec (path : List Char) : List (List Char) :=
  splitPct (stripExtSpec ((splitChar '/' path).getLastD []))

/-- A crate buffer holding only a valid version section (no tracks). -/
def c5buf : List Nat := strCodes "vrsn" ++ [0, 0, 0, 56] ++ utf16be crateMagic

/-- C5 fails on the code for filenames whose stem itself contains a dot:
on `"A.B%%C.crate"` the code keeps only the part before the FIRST dot
(`.split('.').shift()`), yielding the single segment `["A"]`, while the
claimed extension-stripping reading yields `["A.B", "C"]`. -/
theorem c5_counterexample :
    parseCrate "A.B%%C.crate".toList c5buf =
      .ok { name := [['A']], version := crateMagic, tracks := [] } ∧
    crateNameSpec "A.B%%C.crate".toList = [['A', '.', 'B'], ['C']] ∧
    ([['A']] : List (List Char)) ≠ [['A', '.', 'B'], ['C']] :=
  ⟨rfl, by decide, by decide⟩

theorem splitChar_ne_nil (sep : Char) (s : List Char) : splitChar sep s ≠ [] := by
  match s with
  | [] => simp [splitChar]
  | c :: rest =>
    rw [splitChar]
    by_cases h : c = sep
    · simp [h]
    · rw [if_neg h]
      match hs : splitChar sep rest with
      | [] => simp
      | g :: gs => simp

theorem headD_splitChar (sep : Char) (s : List Char) :
    (splitChar sep s).headD [] = s.takeWhile (· ≠ sep) := by
  induction s with
  | nil => rfl
  | cons c rest ih =>
    rw [splitChar]
    by_cases h : c = sep
    · simp [h, List.takeWhile_cons]
    · rw [if_neg h]
      match hs : splitChar sep rest with
      | [] => exact absurd hs (splitChar_ne_nil sep rest)
      | g :: gs =>
        rw [hs] at ih
        simp only [List.headD_cons] at ih
        simp only [ne_eq, decide_not] at ih ⊢
        simp [List.takeWhile_cons, h, ← ih]

/-- C5 amended: the crate's hierarchical name is the portion of the
path's basename BEFORE ITS FIRST DOT (not "extension stripped"), split
on the literal `%%` delimiter, segments preserved exactly. -/
theorem c5_amended_first_dot (path : List Char) (data : List Nat) (crate : Crate)
    (h : parseCrate path data = .ok crate) :
    crate.name =
      splitPct (((splitChar '/' path).getLastD []).takeWhile (· ≠ '.')) := by
  rw [← headD_splitChar]
  match hdec : parseSectionNodesGo data (data.length + 1) 0 data.length with
  | none => simp only [parseCrate, hdec] at h; exact absurd h (by simp)
  | some [] => simp only [parseCrate, hdec] at h; exact absurd h (by simp)
  | some (v :: rest) =>
    simp only [parseCrate, hdec] at h
    by_cases ht : v.type = vrsnTag
    · rw [if_pos ht] at h
      by_cases hv : v.value = Value.str crateMagic
      · rw [if_pos hv] at h
        match hc : collectTracks rest with
        | .error e => rw [hc] at h; exact absurd h (by simp)
        | .ok tracks =>
          rw [hc] at h
          have hcr : crate = ⟨crateNameOfPath path, crateMagic, tracks⟩ := by
            cases h
            rfl
          rw [hcr]
          rfl
      · rw [if_neg hv] at h; exact absurd h (by simp)
    · rw [if_neg ht] at h; exact absurd h (by simp)

/-- Witness for the amended C5: the path `"X%%Y.crate"` yields the
two-segment name `["X", "Y"]`. -/
theorem c5_witness :
    parseCrate "X%%Y.crate".toList c5buf =
      .ok { name := [['X'], ['Y']], version := crateMagic, tracks := [] } ∧
    ({ name := [['X'], ['Y']], version := crateMagic, tracks := [] } : Crate).name =
      splitPct (((splitChar '/' "X%%Y.crate".toList).getLastD []).takeWhile (· ≠ '.')) :=
  ⟨rfl, c5_amended_first_dot "X%%Y.crate".toList c5buf _ rfl⟩

/-! ## trackMetaDataParser: the beat-grid decoder -/

/-- `interface SeratoBeatGridMarker`.  The two float fields are modelled
by their raw big-endian 32-bit patterns: the claims about the beat grid
concern which fields are present, not float arithmetic, and
`getFloat32(o, false)` reads exactly the four raw bytes at `o`. -/
structure SeratoBeatGridMarker where
  position : Nat
  bpm : Option Nat
  beatsTillNextMarker : Option Nat
deriving DecidableEq, Repr

/-- The marker loop of `parseSeratoBeatGrid`: marker `i` sits at
`0x06 + i * 0x08`; every marker but the last reads a big-endian u32
`beatsTillNextMarker` from its second word, the last instead reads a
float `bpm` from the same bytes.  `rem` counts the markers still to read
(`rem = numMarkers - i` throughout). -/
def parseBeatGridGo (data : List Nat) (numMarkers : Nat) :
    Nat → Nat → Option (List SeratoBeatGridMarker)
  | 0, _ => some []
  | rem + 1, i =>
    match readU32 data (6 + i * 8) with
    | none => none
    | some position =>
      if i < numMarkers - 1 then
        match readU32 data (6 + i * 8 + 4) with
        | none => none
        | some beats =>
          (parseBeatGridGo data numMarkers rem (i + 1)).map
            (⟨position, none, some beats⟩ :: ·)
      else
        match readU32 data (6 + i * 8 + 4) with
        | none => none
        | some bpm =>
          (parseBeatGridGo data numMarkers rem (i + 1)).map
            (⟨position, some bpm, none⟩ :: ·)

/-- `parseSeratoBeatGrid(view)`: big-endian u32 marker count at offset
2, then `numMarkers` fixed 8-byte records from offset 6. -/
def parseSeratoBeatGrid (data : List Nat) : Option (List SeratoBeatGridMarker) :=
  match readU32 data 2 with
  | none => none
  | some numMarkers => parseBeatGridGo data numMarkers numMarkers 0

/-! ## C6: all-but-last markers carry beat counts, the last carries BPM -/

/-- C6 fails literally for marker count 0: the decode succeeds with an
empty marker list, so no marker at all — rather than exactly one —
carries a BPM value. -/
theorem c6_counterexample :
    parseSeratoBeatGrid [0, 0, 0, 0, 0, 0] = some [] ∧
    readU32 [0, 0, 0, 0, 0, 0] 2 = some 0 ∧
    List.countP (fun m => m.bpm.isSome) ([] : List SeratoBeatGridMarker) = 0 ∧
    (0 : Nat) ≠ 1 :=
  ⟨rfl, rfl, rfl, by decide⟩

theorem parseBeatGridGo_shape (data : List Nat) (n : Nat) :
    ∀ (rem i : Nat) (ms : List SeratoBeatGridMarker), i + rem = n →
      parseBeatGridGo data n rem i = some ms →
      ms.length = rem ∧
      (∀ m ∈ ms.take (rem - 1), m.bpm = none ∧ m.beatsTillNextMarker.isSome) ∧
      (∀ m ∈ ms.drop (rem - 1), m.bpm.isSome ∧ m.beatsTillNextMarker = none) := by
  intro rem
  induction rem with
  | zero =>
    intro i ms _ h
    rw [parseBeatGridGo] at h
    cases h
    exact ⟨rfl, by simp, by simp⟩
  | succ rem ih =>
    intro i ms hn h
    rw [parseBeatGridGo] at h
    match hp : readU32 data (6 + i * 8) with
    | none => simp only [hp] at h; exact absurd h (by simp)
    | some position =>
      simp only [hp] at h
      by_cases hi : i < n - 1
      · rw [if_pos hi] at h
        match hb : readU32 data (6 + i * 8 + 4) with
        | none => simp only [hb] at h; exact absurd h (by simp)
        | some beats =>
          simp only [hb] at h
          match hrec : parseBeatGridGo data n rem (i + 1) with
          | none => simp only [hrec, Option.map_none] at h; exact absurd h (by simp)
          | some ms' =>
            simp only [hrec, Option.map_some] at h
            cases h
            obtain ⟨hl, hta, hd⟩ := ih (i + 1) ms' (by omega) hrec
            have hrem : 1 ≤ rem := by omega
            refine ⟨by simp [hl], ?_, ?_⟩
            · intro m hm
              rw [show rem + 1 - 1 = (rem - 1) + 1 by omega, List.take_succ_cons] at hm
              rcases List.mem_cons.mp hm with hm | hm
              · subst hm; exact ⟨rfl, by simp⟩
              · exact hta m hm
            · intro m hm
              rw [show rem + 1 - 1 = (rem - 1) + 1 by omega, List.drop_succ_cons] at hm
              exact hd m hm
      · rw [if_neg hi] at h
        match hb : readU32 data (6 + i * 8 + 4) with
        | none => simp only [hb] at h; exact absurd h (by simp)
        | some bpm =>
          simp only [hb] at h
          match hrec : parseBeatGridGo data n rem (i + 1) with
          | none => simp only [hrec, Option.map_none] at h; exact absurd h (by simp)
          | some ms' =>
            simp only [hrec, Option.map_some] at h
            cases h
            obtain ⟨hl, _, _⟩ := ih (i + 1) ms' (by omega) hrec
            have hrem : rem = 0 := by omega
            subst hrem
            have hms' : ms' = [] := List.length_eq_zero.mp hl
            subst hms'
            exact ⟨rfl, by simp, by simp⟩

/-- C6 amended: a decoded beat grid with marker count `N` has exactly
`N` markers; each of the first `N − 1` carries a beats-to-next integer
and a null BPM; every marker from position `N − 1` on (the last one)
carries a BPM and a null beats-to-next; for `N ≥ 1` exactly one marker
carries a BPM and exactly `N − 1` carry beat counts; no marker carries
both.  (For `N = 0` the decode succeeds with an empty list and no marker
carries anything — the unamended "exactly one" fails there.) -/
theorem c6_beatgrid_shape (data : List Nat) (n : Nat) (ms : List SeratoBeatGridMarker)
    (hn : readU32 data 2 = some n)
    (h : parseSeratoBeatGrid data = some ms) :
    ms.length = n ∧
    (∀ m ∈ ms.take (n - 1), m.bpm = none ∧ m.beatsTillNextMarker.isSome) ∧
    (∀ m ∈ ms.drop (n - 1), m.bpm.isSome ∧ m.beatsTillNextMarker = none) ∧
    (0 < n → List.countP (fun m => m.bpm.isSome) ms = 1 ∧
      List.countP (fun m => m.beatsTillNextMarker.isSome) ms = n - 1) ∧
    (∀ m ∈ ms, ¬(m.bpm.isSome ∧ m.beatsTillNextMarker.isSome)) := by
  rw [parseSeratoBeatGrid, hn] at h
  obtain ⟨hl, ht, hd⟩ := parseBeatGridGo_shape data n n 0 ms (by omega) h
  have hsplit : ms = ms.take (n - 1) ++ ms.drop (n - 1) := (List.take_append_drop _ _).symm
  have htlen : (ms.take (n - 1)).length = min (n - 1) n := by simp [hl]
  have hdlen : (ms.drop (n - 1)).length = n - (n - 1) := by simp [hl]
  refine ⟨hl, ht, hd, ?_, ?_⟩
  · intro hpos
    constructor
    · rw [hsplit, List.countP_append]
      have h1 : List.countP (fun m => m.bpm.isSome) (ms.take (n - 1)) = 0 := by
        rw [List.countP_eq_zero]
        intro m hm
        simp [(ht m hm).1]
      have h2 : List.countP (fun m => m.bpm.isSome) (ms.drop (n - 1)) =
          (ms.drop (n - 1)).length := by
        rw [List.countP_eq_length]
        intro m hm
        simp [(hd m hm).1]
      rw [h1, h2, hdlen]
      omega
    · rw [hsplit, List.countP_append]
      have h1 : List.countP (fun m => m.beatsTillNextMarker.isSome) (ms.take (n - 1)) =
          (ms.take (n - 1)).length := by
        rw [List.countP_eq_length]
        intro m hm
        simp [(ht m hm).2]
      have h2 : List.countP (fun m => m.beatsTillNextMarker.isSome) (ms.drop (n - 1)) = 0 := by
        rw [List.countP_eq_zero]
        intro m hm
        simp [(hd m hm).2]
      rw [h1, h2, htlen]
      omega
  · intro m hm
    rw [hsplit] at hm
    rcases List.mem_append.mp hm with hm | hm
    · simp [(ht m hm).1]
    · simp [(hd m hm).2]

/-- Witness for the amended C6 at the spec's 3-marker example: markers 0
and 1 carry beat counts and no BPM, marker 2 carries a BPM and no beat
count. -/
theorem c6_witness :
    readU32 ([0, 0, 0, 0, 0, 3] ++ List.replicate 24 0) 2 = some 3 ∧
    parseSeratoBeatGrid ([0, 0, 0, 0, 0, 3] ++ List.replicate 24 0) =
      some [⟨0, none, some 0⟩, ⟨0, none, some 0⟩, ⟨0, some 0, none⟩] ∧
    ([⟨0, none, some 0⟩, ⟨0, none, some 0⟩,
      (⟨0, some 0, none⟩ : SeratoBeatGridMarker)] : List SeratoBeatGridMarker).length = 3 ∧
    List.countP (fun m => m.bpm.isSome)
      ([⟨0, none, some 0⟩, ⟨0, none, some 0⟩, ⟨0, some 0, none⟩] :
        List SeratoBeatGridMarker) = 1 :=
  ⟨rfl, rfl,
   (c6_beatgrid_shape ([0, 0, 0, 0, 0, 3] ++ List.replicate 24 0) 3
     [⟨0, none, some 0⟩, ⟨0, none, some 0⟩, ⟨0, some 0, none⟩] (by rfl) (by rfl)).1,
   ((c6_beatgrid_shape ([0, 0, 0, 0, 0, 3] ++ List.replicate 24 0) 3
     [⟨0, none, some 0⟩, ⟨0, none, some 0⟩, ⟨0, some 0, none⟩] (by rfl) (by rfl)).2.2.2.1
     (by decide)).1⟩

/-! ## trackMetaDataParser: the Markers2 decoder -/

/-- The scan of `readNullTerminatedString(view, offset)` on the bytes
from `offset` on: the raw bytes before the first zero byte; running past
the view's end without a terminator makes `getUint8` throw (none). -/
def readNullTermGo : List Nat → Option (List Nat)
  | [] => none
  | b :: rest =>
    if b = 0 then some []
    else (readNullTermGo rest).map (b :: ·)

/-- `readNullTerminatedString(view, offset)` returning the raw bytes of
the string (the source decodes them with `TextDecoder`; names are
compared against ASCII constants, which only equal byte-identical
sequences). -/
def readNullTerminatedString (data : List Nat) (offset : Nat) : Option (List Nat) :=
  readNullTermGo (data.drop offset)

/-- The UTF-16 length of `new TextDecoder().decode(bytes)` — what the
source's `name.length` is after `readNullTerminatedString`.  WHATWG
UTF-8 decoding: ASCII and valid 2/3-byte sequences contribute one UTF-16
unit, valid 4-byte sequences two (a surrogate pair), and each decoding
error one replacement character, resuming at the offending byte. -/
def utf16Len : List Nat → Nat
  | [] => 0
  | b :: rest =>
    if b < 128 then 1 + utf16Len rest
    else if 194 ≤ b ∧ b ≤ 223 then
      match rest with
      | [] => 1
      | c :: rest2 =>
        if 128 ≤ c ∧ c ≤ 191 then 1 + utf16Len rest2
        else 1 + utf16Len (c :: rest2)
    else if 224 ≤ b ∧ b ≤ 239 then
      match rest with
      | [] => 1
      | c :: rest2 =>
        if (if b = 224 then 160 else 128) ≤ c ∧ c ≤ (if b = 237 then 159 else 191) then
          match rest2 with
          | [] => 1
          | d :: rest3 =>
            if 128 ≤ d ∧ d ≤ 191 then 1 + utf16Len rest3
            else 1 + utf16Len (d :: rest3)
        else 1 + utf16Len (c :: rest2)
    else if 240 ≤ b ∧ b ≤ 244 then
      match rest with
      | [] => 1
      | c :: rest2 =>
        if (if b = 240 then 144 else 128) ≤ c ∧ c ≤ (if b = 244 then 143 else 191) then
          match rest2 with
          | [] => 1
          | d :: rest3 =>
            if 128 ≤ d ∧ d ≤ 191 then
              match rest3 with
              | [] => 1
              | e :: rest4 =>
                if 128 ≤ e ∧ e ≤ 191 then 2 + utf16Len rest4
                else 1 + utf16Len (e :: rest4)
            else 1 + utf16Len (d :: rest3)
        else 1 + utf16Len (c :: rest2)
    else 1 + utf16Len rest

/-- `interface CuePoint`. -/
structure CuePoint where
  index : Nat
  positionMs : Nat
  color : List Nat
  name : List Nat
deriving DecidableEq, Repr

/-- `interface LoopEntry`. -/
structure LoopEntry where
  index : Nat
  startMs : Nat
  endMs : Nat
  color : List Nat
  locked : Bool
  name : List Nat
deriving DecidableEq, Repr

/-- `interface SeratorMarker2Data` (the result object; `bpmLock` is
initialised to `false` and only ever reassigned a boolean, so it is
modelled as `Bool`). -/
structure SeratorMarker2Data where
  color : Option (List Nat)
  cuePoints : List CuePoint
  loopEntries : List LoopEntry
  bpmLock : Bool
deriving DecidableEq, Repr

/-- The element-collecting loop of `parseSeratorMarkers2`: at each
offset below the payload's end, read a NUL-terminated name (empty name
breaks), a 4-byte big-endian length at `offset + name.length + 1`
(`name.length` is the DECODED string's UTF-16 length), and the element
data view at `offset + name.length + 5`; collect `(name bytes, data
slice)` pairs.  Each iteration advances the offset by at least 6, so
`payload.length + 1` fuel is never exhausted. -/
def parseElementsGo (payload : List Nat) : Nat → Nat → Option (List (List Nat × List Nat))
  | 0, _ => none
  | fuel + 1, offset =>
    if offset < payload.length then
      match readNullTerminatedString payload offset with
      | none => none
      | some name =>
        if name = [] then some []
        else
          match readU32 payload (offset + utf16Len name + 1) with
          | none => none
          | some len =>
            if offset + utf16Len name + 5 + len ≤ payload.length then
              match parseElementsGo payload fuel (offset + utf16Len name + 5 + len) with
              | none => none
              | some rest =>
                some ((name, (payload.drop (offset + utf16Len name + 5)).take len) :: rest)
            else none
    else some []

def colorName : List Nat := strCodes "COLOR"
def cueName : List Nat := strCodes "CUE"
def loopName : List Nat := strCodes "LOOP"
def bpmlockName : List Nat := strCodes "BPMLOCK"

/-- One step of the `elements.forEach` dispatch of
`parseSeratorMarkers2`: `COLOR`, `CUE`, `LOOP` and `BPMLOCK` elements
update the result (an out-of-range read inside an element view throws,
aborting the whole payload); any other name is logged and ignored. -/
def applyElement (result : SeratorMarker2Data) (el : List Nat × List Nat) :
    Option SeratorMarker2Data :=
  let d := el.2
  if el.1 = colorName then
    match d[0]?, d[1]?, d[2]?, d[3]? with
    | some a, some r, some g, some b => some { result with color := some [a, r, g, b] }
    | _, _, _, _ => none
  else if el.1 = cueName then
    match d[1]?, readU32 d 2, d[7]?, d[8]?, d[9]?, readNullTermGo (d.drop 12) with
    | some idx, some pos, some r, some g, some b, some nm =>
      some { result with cuePoints := result.cuePoints ++ [⟨idx, pos, [r, g, b], nm⟩] }
    | _, _, _, _, _, _ => none
  else if el.1 = loopName then
    match d[1]?, readU32 d 2, readU32 d 6, d[14]?, d[15]?, d[16]?, d[17]?, d[19]?,
        readNullTermGo (d.drop 20) with
    | some idx, some s, some e, some a, some r, some g, some b, some lk, some nm =>
      some { result with loopEntries :=
        result.loopEntries ++ [⟨idx, s, e, [a, r, g, b], lk = 1, nm⟩] }
    | _, _, _, _, _, _, _, _, _ => none
  else if el.1 = bpmlockName then
    match d[0]? with
    | some f => some { result with bpmLock := f = 1 }
    | none => none
  else some result

/-- The `elements.forEach` fold over the freshly initialised result. -/
def runElements (els : List (List Nat × List Nat)) : Option SeratorMarker2Data :=
  els.foldlM applyElement ⟨none, [], [], false⟩

/-- `parseSeratorMarkers2` from the decoded inner buffer on: the
`0x01 0x01` magic check, element collection, then dispatch. -/
def parseSeratorMarkers2Inner (payload : List Nat) : Option SeratorMarker2Data :=
  if payload[0]? = some 1 ∧ payload[1]? = some 1 then
    match parseElementsGo payload (payload.length + 1) 2 with
    | none => none
    | some els => runElements els
  else none

/-! ## C7: Markers2 element decoding -/

/-- Big-endian 4-byte encoding of a u32. -/
def u32be (n : Nat) : List Nat :=
  [n / 16777216 % 256, n / 65536 % 256, n / 256 % 256, n % 256]

/-- The wire form of one Markers2 element: NUL-terminated name, 4-byte
big-endian data length, data. -/
def encodeElement (el : List Nat × List Nat) : List Nat :=
  el.1 ++ 0 :: (u32be el.2.length ++ el.2)

/-- The wire form of an element sequence. -/
def encodeElements (els : List (List Nat × List Nat)) : List Nat :=
  (els.map encodeElement).flatten

/-- Well-formed elements: nonempty names of nonzero ASCII bytes (the
format's element names are NUL-terminated ASCII), data below the u32
length limit. -/
def wfElements (els : List (List Nat × List Nat)) : Prop :=
  ∀ el ∈ els, el.1 ≠ [] ∧ (∀ b ∈ el.1, 0 < b ∧ b < 128) ∧ el.2.length < 4294967296

theorem utf16Len_ascii (bytes : List Nat) (h : ∀ b ∈ bytes, b < 128) :
    utf16Len bytes = bytes.length := by
  induction bytes with
  | nil => rfl
  | cons b rest ih =>
    have hb : b < 128 := h b (by simp)
    have ih' := ih (fun x hx => h x (by simp [hx]))
    rw [utf16Len.eq_def]
    dsimp only
    rw [if_pos hb, ih']
    simp only [List.length_cons]
    omega

theorem readNullTermGo_append (name suffix : List Nat) (h : ∀ b ∈ name, b ≠ 0) :
    readNullTermGo (name ++ 0 :: suffix) = some name := by
  induction name with
  | nil => simp [readNullTermGo]
  | cons b rest ih =>
    have hb : b ≠ 0 := h b (by simp)
    rw [List.cons_append, readNullTermGo, if_neg hb,
      ih (fun x hx => h x (by simp [hx]))]
    rfl

theorem readU32_eq_drop (data : List Nat) (i : Nat) :
    readU32 data i = readU32 (data.drop i) 0 := by
  rw [readU32, readU32]
  rw [List.getElem?_drop, List.getElem?_drop, List.getElem?_drop, List.getElem?_drop]
  norm_num

theorem readU32_u32be (n : Nat) (suffix : List Nat) (h : n < 4294967296) :
    readU32 (u32be n ++ suffix) 0 = some n := by
  rw [readU32, u32be]
  simp only [List.cons_append, List.getElem?_cons_zero, List.getElem?_cons_succ]
  have : ((n / 16777216 % 256 * 256 + n / 65536 % 256) * 256 + n / 256 % 256) * 256 +
      n % 256 = n := by omega
  rw [this]

theorem length_encodeElements_ge (els : List (List Nat × List Nat)) :
    els.length ≤ (encodeElements els).length := by
  induction els with
  | nil => simp [encodeElements]
  | cons el rest ih =>
    rw [encodeElements, List.map_cons, List.flatten_cons]
    rw [encodeElements] at ih
    simp only [List.length_append, List.length_cons, encodeElement, List.length_cons]
    omega

theorem parseElementsGo_encode (els : List (List Nat × List Nat)) :
    ∀ (pre : List Nat) (fuel : Nat), wfElements els → els.length < fuel →
    parseElementsGo (pre ++ encodeElements els) fuel pre.length = some els := by
  induction els with
  | nil =>
    intro pre fuel _ hfuel
    match fuel, hfuel with
    | f + 1, _ =>
      rw [parseElementsGo, if_neg (by simp [encodeElements])]
  | cons el rest ih =>
    intro pre fuel hwf hfuel
    obtain ⟨name, d⟩ := el
    obtain ⟨hne, hascii, hlen⟩ := hwf (name, d) (by simp)
    have hwfr : wfElements rest := fun x hx => hwf x (by simp [hx])
    match fuel, hfuel with
    | f + 1, hf =>
      have hshape : pre ++ encodeElements ((name, d) :: rest) =
          pre ++ (name ++ 0 :: ((u32be d.length ++ d) ++ encodeElements rest)) := by
        simp [encodeElements, encodeElement, List.append_assoc]
      have hlen0 : name.length ≥ 1 := by
        cases name with
        | nil => exact absurd rfl hne
        | cons a l => simp
      have hplen : (pre ++ encodeElements ((name, d) :: rest)).length =
          pre.length + (name.length + 5 + d.length + (encodeElements rest).length) := by
        rw [hshape]
        simp [u32be]
        omega
      have hname0 : ∀ b ∈ name, b ≠ 0 := fun b hb => by
        have := (hascii b hb).1
        omega
      have hdrop : (pre ++ encodeElements ((name, d) :: rest)).drop pre.length =
          name ++ 0 :: ((u32be d.length ++ d) ++ encodeElements rest) := by
        rw [hshape]
        exact List.drop_left _ _
      have hread : readNullTerminatedString (pre ++ encodeElements ((name, d) :: rest))
          pre.length = some name := by
        rw [readNullTerminatedString, hdrop, readNullTermGo_append _ _ hname0]
      have hulen : utf16Len name = name.length :=
        utf16Len_ascii name (fun b hb => (hascii b hb).2)
      have hshape2 : pre ++ encodeElements ((name, d) :: rest) =
          (pre ++ name ++ [0]) ++ (u32be d.length ++ (d ++ encodeElements rest)) := by
        simp [encodeElements, encodeElement, List.append_assoc]
      have hlen2 : (pre ++ name ++ [0]).length = pre.length + name.length + 1 := by
        simp only [List.length_append, List.length_cons, List.length_nil]
      have hdrop2 : (pre ++ encodeElements ((name, d) :: rest)).drop
          (pre.length + name.length + 1) = u32be d.length ++ (d ++ encodeElements rest) := by
        rw [show pre.length + name.length + 1 = (pre ++ name ++ [0]).length from hlen2.symm,
          hshape2]
        exact List.drop_left _ _
      have hu32 : readU32 (pre ++ encodeElements ((name, d) :: rest))
          (pre.length + name.length + 1) = some d.length := by
        rw [readU32_eq_drop, hdrop2, readU32_u32be _ _ hlen]
      have hshape3 : pre ++ encodeElements ((name, d) :: rest) =
          (pre ++ name ++ [0] ++ u32be d.length) ++ (d ++ encodeElements rest) := by
        simp [encodeElements, encodeElement, List.append_assoc]
      have hlen3 : (pre ++ name ++ [0] ++ u32be d.length).length =
          pre.length + name.length + 5 := by
        simp [u32be]
        omega
      have hdrop3 : (pre ++ encodeElements ((name, d) :: rest)).drop
          (pre.length + name.length + 5) = d ++ encodeElements rest := by
        rw [show pre.length + name.length + 5 =
          (pre ++ name ++ [0] ++ u32be d.length).length from hlen3.symm]
        rw [hshape3, List.drop_left]
      have hshape4 : pre ++ encodeElements ((name, d) :: rest) =
          (pre ++ encodeElement (name, d)) ++ encodeElements rest := by
        simp [encodeElements, List.append_assoc]
      have hlen4 : (pre ++ encodeElement (name, d)).length =
          pre.length + name.length + 5 + d.length := by
        simp [encodeElement, u32be]
        omega
      have hrec : parseElementsGo (pre ++ encodeElements ((name, d) :: rest)) f
          (pre.length + name.length + 5 + d.length) = some rest := by
        rw [hshape4, show pre.length + name.length + 5 + d.length =
          (pre ++ encodeElement (name, d)).length from hlen4.symm]
        exact ih (pre ++ encodeElement (name, d)) f hwfr
          (by simp only [List.length_cons] at hf; omega)
      rw [parseElementsGo, if_pos (by rw [hplen]; omega)]
      simp only [hread]
      rw [if_neg (by simpa using hne), hulen]
      simp only [hu32]
      rw [if_pos (by rw [hplen]; omega)]
      simp only [hrec]
      rw [hdrop3, List.take_left]

theorem applyElement_unknown (result : SeratorMarker2Data) (nm dd : List Nat)
    (h1 : nm ≠ colorName) (h2 : nm ≠ cueName) (h3 : nm ≠ loopName)
    (h4 : nm ≠ bpmlockName) :
    applyElement result (nm, dd) = some result := by
  simp [applyElement, h1, h2, h3, h4]

/-- C7: Markers2 element decoding.  For any well-formed element sequence
(NUL-terminated ASCII names, the format's framing), the inner decoder
accepts the `0x01 0x01` magic and decodes exactly the dispatch fold of
the elements; a `COLOR` element's 4 bytes become the ARGB quadruple; a
`CUE` element yields index at byte 1, big-endian u32 position at bytes
2–5, RGB at bytes 7–9 and the NUL-terminated name from byte 12; an
element with an unrecognized name leaves the result untouched (no
error), and removing it from any element sequence leaves every other
element's decoded values unchanged. -/
theorem c7_markers2_elements (els : List (List Nat × List Nat)) (hwf : wfElements els) :
    parseSeratorMarkers2Inner (1 :: 1 :: encodeElements els) = runElements els ∧
    (∀ (result : SeratorMarker2Data) (a r g b : Nat) (drest : List Nat),
      applyElement result (colorName, a :: r :: g :: b :: drest) =
        some { result with color := some [a, r, g, b] }) ∧
    (∀ (result : SeratorMarker2Data) (d0 idx p3 p2 p1 p0 d6 r g b d10 d11 : Nat)
        (nm junk : List Nat), (∀ x ∈ nm, x ≠ 0) →
      applyElement result
        (cueName, d0 :: idx :: p3 :: p2 :: p1 :: p0 :: d6 :: r :: g :: b :: d10 :: d11 ::
          (nm ++ 0 :: junk)) =
        some { result with cuePoints := result.cuePoints ++
          [⟨idx, ((p3 * 256 + p2) * 256 + p1) * 256 + p0, [r, g, b], nm⟩] }) ∧
    (∀ (result : SeratorMarker2Data) (nm dd : List Nat),
      nm ≠ colorName → nm ≠ cueName → nm ≠ loopName → nm ≠ bpmlockName →
      applyElement result (nm, dd) = some result) ∧
    (∀ (els1 els2 : List (List Nat × List Nat)) (nm dd : List Nat),
      nm ≠ colorName → nm ≠ cueName → nm ≠ loopName → nm ≠ bpmlockName →
      runElements (els1 ++ (nm, dd) :: els2) = runElements (els1 ++ els2)) := by
  refine ⟨?_, ?_, ?_, ?_, ?_⟩
  · rw [parseSeratorMarkers2Inner, if_pos (by simp)]
    have hb : els.length < (1 :: 1 :: encodeElements els).length + 1 := by
      have := length_encodeElements_ge els
      simp only [List.length_cons]
      omega
    have h : parseElementsGo (1 :: 1 :: encodeElements els)
        ((1 :: 1 :: encodeElements els).length + 1) 2 = some els :=
      parseElementsGo_encode els [1, 1] ((1 :: 1 :: encodeElements els).length + 1) hwf hb
    simp only [h]
  · intro result a r g b drest
    simp [applyElement]
  · intro result d0 idx p3 p2 p1 p0 d6 r g b d10 d11 nm junk hnm
    have hc : cueName ≠ colorName := by decide
    simp only [applyElement, if_neg hc, if_pos rfl]
    simp only [readU32]
    simp only [List.getElem?_cons_zero, List.getElem?_cons_succ]
    have hdrop : (d0 :: idx :: p3 :: p2 :: p1 :: p0 :: d6 :: r :: g :: b :: d10 :: d11 ::
        (nm ++ 0 :: junk)).drop 12 = nm ++ 0 :: junk := by
      simp
    rw [hdrop, readNullTermGo_append _ _ hnm]
    simp
  · intro result nm dd h1 h2 h3 h4
    exact applyElement_unknown result nm dd h1 h2 h3 h4
  · intro els1 els2 nm dd h1 h2 h3 h4
    rw [runElements, runElements, List.foldlM_append, List.foldlM_append]
    cases hm : els1.foldlM applyElement ⟨none, [], [], false⟩ with
    | none => rfl
    | some m =>
      have hskip : applyElement m (nm, dd) = some m :=
        applyElement_unknown m nm dd h1 h2 h3 h4
      show ((nm, dd) :: els2).foldlM applyElement m = els2.foldlM applyElement m
      rw [List.foldlM_cons, hskip]
      rfl

/-- The spec's sample element sequence: a COLOR element, a CUE element
(index 2, position 1500 ms, RGB (10, 20, 30), name "Intro"), and an
unknown element named XYZZY. -/
def c7els : List (List Nat × List Nat) :=
  [(colorName, [255, 0, 255, 128]),
   (cueName, [0, 2, 0, 0, 5, 220, 0, 10, 20, 30, 0, 0] ++ strCodes "Intro" ++ [0]),
   (strCodes "XYZZY", [9, 9])]

/-- Witness for C7: the sample payload decodes to the matching COLOR and
CUE values, with the XYZZY element ignored. -/
theorem c7_witness :
    wfElements c7els ∧
    parseSeratorMarkers2Inner (1 :: 1 :: encodeElements c7els) =
      some ⟨some [255, 0, 255, 128], [⟨2, 1500, [10, 20, 30], strCodes "Intro"⟩], [], false⟩ :=
  ⟨by unfold wfElements; decide, ((c7_markers2_elements c7els (by unfold wfElements; decide)).1).trans rfl⟩

/-! ## trackMetaDataParser: the GEOB frame loop -/

/-- Modelled from the spec (section 4.3): base64 value of one ASCII
character (the source delegates the outer decode to Node's
`Buffer.from(s, 'base64')`, an external collaborator outside this
repository; non-alphabet characters, including padding, are skipped, and
each group of four 6-bit values yields three bytes, a trailing group of
two or three values one or two bytes). -/
def base64Val (c : Nat) : Option Nat :=
  if 65 ≤ c ∧ c ≤ 90 then some (c - 65)
  else if 97 ≤ c ∧ c ≤ 122 then some (c - 97 + 26)
  else if 48 ≤ c ∧ c ≤ 57 then some (c - 48 + 52)
  else if c = 43 then some 62
  else if c = 47 then some 63
  else none

/-- Groups of four 6-bit values to three bytes; partial final group. -/
def base64Group : List Nat → List Nat
  | v1 :: v2 :: v3 :: v4 :: rest =>
    (v1 * 4 + v2 / 16) :: (v2 % 16 * 16 + v3 / 4) :: (v3 % 4 * 64 + v4) ::
      base64Group rest
  | [v1, v2, v3] => [v1 * 4 + v2 / 16, v2 % 16 * 16 + v3 / 4]
  | [v1, v2] => [v1 * 4 + v2 / 16]
  | _ => []

/-- Base64 decode of an ASCII byte sequence. -/
def base64Decode (cs : List Nat) : List Nat :=
  base64Group (cs.filterMap base64Val)

/-- `parseSeratorMarkers2(view)` from the raw GEOB bytes: NUL-terminated
base64 string, decode, then the inner magic/element parse. -/
def parseSeratorMarkers2 (data : List Nat) : Option SeratorMarker2Data :=
  match readNullTerminatedString data 0 with
  | none => none
  | some b64 => parseSeratorMarkers2Inner (base64Decode b64)

/-- `interface GEOBDir`. -/
structure GEOBDir where
  type : String
  filename : String
  description : String
  data : List Nat

/-- The fields of `TrackMetaData` the GEOB `forEach` of
`parseTrackMetaData` can touch (every other field is initialised before
the loop and never referenced inside it). -/
structure TrackMetaData where
  color : Option (List Nat)
  cuePoints : List CuePoint
  loopEntries : List LoopEntry
  bpmLock : Bool
  beatGridMarkers : Option (List SeratoBeatGridMarker)
  hasWarnings : Bool
deriving DecidableEq, Repr

/-- One iteration of the `geobObjects.forEach` of `parseTrackMetaData`:
non-octet-stream frames are skipped; a `Serato Markers2` frame merges
the decoded markers (`markers.color ?? result.color`, cue/loop lists
replaced, `bpmLock` — never null — replaced); a `Serato BeatGrid` frame
replaces the beat-grid markers; any decode failure is caught, sets
`hasWarnings`, and changes nothing else; other descriptions are
ignored. -/
def applyGeob (result : TrackMetaData) (g : GEOBDir) : TrackMetaData :=
  if g.type ≠ "application/octet-stream" then result
  else if g.description = "Serato Markers2" then
    match parseSeratorMarkers2 g.data with
    | some markers =>
      { result with
        color := markers.color.or result.color,
        cuePoints := markers.cuePoints,
        loopEntries := markers.loopEntries,
        bpmLock := markers.bpmLock }
    | none => { result with hasWarnings := true }
  else if g.description = "Serato BeatGrid" then
    match parseSeratoBeatGrid g.data with
    | some bg => { result with beatGridMarkers := some bg }
    | none => { result with hasWarnings := true }
  else result

/-- The whole `geobObjects.forEach` loop. -/
def processGeobs (result : TrackMetaData) (gs : List GEOBDir) : TrackMetaData :=
  gs.foldl applyGeob result

/-! ## C8: a failed payload decode only sets the warning flag -/

/-- C8: when a `Serato Markers2` or `Serato BeatGrid` payload fails to
decode (malformed base64 yielding a bad magic, truncated element, or any
other failure), the builder sets `hasWarnings` on that track and leaves
every other field of the record exactly as it was (no partial
cue/loop/color/beat-grid data is merged); and processing always
continues with the remaining GEOB frames, each track's record being
built by its own independent fold. -/
theorem c8_failure_sets_warning_only :
    (∀ (r : TrackMetaData) (g : GEOBDir), g.type = "application/octet-stream" →
      g.description = "Serato Markers2" → parseSeratorMarkers2 g.data = none →
      applyGeob r g = { r with hasWarnings := true }) ∧
    (∀ (r : TrackMetaData) (g : GEOBDir), g.type = "application/octet-stream" →
      g.description = "Serato BeatGrid" → parseSeratoBeatGrid g.data = none →
      applyGeob r g = { r with hasWarnings := true }) ∧
    (∀ (r : TrackMetaData) (gs1 gs2 : List GEOBDir) (g : GEOBDir),
      processGeobs r (gs1 ++ g :: gs2) =
        processGeobs (applyGeob (processGeobs r gs1) g) gs2) := by
  refine ⟨?_, ?_, ?_⟩
  · intro r g htype hdesc hfail
    rw [applyGeob, if_neg (by simp [htype]), if_pos hdesc, hfail]
  · intro r g htype hdesc hfail
    have hne : g.description ≠ "Serato Markers2" := by
      rw [hdesc]; decide
    rw [applyGeob, if_neg (by simp [htype]), if_neg hne, if_pos hdesc, hfail]
  · intro r gs1 gs2 g
    rw [processGeobs, processGeobs, processGeobs, List.foldl_append, List.foldl_cons]

/-- Witness for C8: a Markers2 frame whose base64 payload decodes to
bytes failing the magic check, and a BeatGrid frame with an empty
payload; both set only the warning flag on an initially clean record. -/
theorem c8_witness :
    parseSeratorMarkers2 (strCodes "AAAA" ++ [0]) = none ∧
    applyGeob ⟨none, [], [], false, none, false⟩
        ⟨"application/octet-stream", "f", "Serato Markers2", strCodes "AAAA" ++ [0]⟩ =
      ⟨none, [], [], false, none, true⟩ ∧
    parseSeratoBeatGrid [] = none ∧
    applyGeob ⟨none, [], [], false, none, false⟩
        ⟨"application/octet-stream", "f", "Serato BeatGrid", []⟩ =
      ⟨none, [], [], false, none, true⟩ :=
  ⟨rfl,
   c8_failure_sets_warning_only.1 ⟨none, [], [], false, none, false⟩
     ⟨"application/octet-stream", "f", "Serato Markers2", strCodes "AAAA" ++ [0]⟩
     rfl rfl rfl,
   rfl,
   (c8_failure_sets_warning_only.2.1) ⟨none, [], [], false, none, false⟩
     ⟨"application/octet-stream", "f", "Serato BeatGrid", []⟩
     rfl rfl rfl⟩

/-! ## cli: the crate scan and the track de-duplication index -/

/-- `Map.get` over an association-list model of the JS `Map` (only
`has`/`get`/`set`-if-absent are used by the scan). -/
def mapGet (m : List (List Char × Nat)) (k : List Char) : Option Nat :=
  match m with
  | [] => none
  | (k', v) :: rest => if k' = k then some v else mapGet rest k

/-- `track.path.includes(trackFilter)` and the guard
`if (trackFilter && !track.path.includes(trackFilter)) continue`:
whether a track path passes the optional `-t` filter. -/
def keepTrack (trackFilter : Option (List Char)) (path : List Char) : Bool :=
  match trackFilter with
  | some f => decide (f <:+: path)
  | none => true

/-- The mutable scan state: `trackList` and `trackPathIndex` of the
CLI driver. -/
structure ScanState where
  trackList : List (List Char)
  trackPathIndex : List (List Char × Nat)

/-- One iteration of the track loop inside the crate scan: filtered-out
paths are skipped; a path already in `trackPathIndex` adds nothing; a
new path is pushed onto `trackList` and indexed with
`trackList.length - 1` (after the push, i.e. the pre-push length). -/
def scanTrack (trackFilter : Option (List Char)) (st : ScanState) (path : List Char) :
    ScanState :=
  if keepTrack trackFilter path = false then st
  else if (mapGet st.trackPathIndex path).isSome then st
  else ⟨st.trackList ++ [path], (path, st.trackList.length) :: st.trackPathIndex⟩

/-- The track loop over one parsed crate's track paths. -/
def scanCrate (trackFilter : Option (List Char)) (st : ScanState)
    (tracks : List (List Char)) : ScanState :=
  tracks.foldl (scanTrack trackFilter) st

/-- The whole crate scan (crates that fail to parse contribute no
tracks and are simply absent from the input list). -/
def scanCrates (trackFilter : Option (List Char))
    (crates : List (List (List Char))) : ScanState :=
  crates.foldl (scanCrate trackFilter) ⟨[], []⟩

/-- The playlist track mapping:
`crate.tracks.map((t) => trackPathIndex.get(t.path)).filter((i) => i !== undefined)`. -/
def playlistTracks (idx : List (List Char × Nat)) (tracks : List (List Char)) : List Nat :=
  tracks.filterMap (mapGet idx)

/-- Index of the first occurrence of `p`. -/
def idxOf? (p : List Char) : List (List Char) → Option Nat
  | [] => none
  | q :: rest => if q = p then some 0 else (idxOf? p rest).map (· + 1)

/-- The distinct elements of a list in first-seen order (the spec's
"first-seen order" de-duplication). -/
def firstSeenList (paths : List (List Char)) : List (List Char) :=
  paths.foldl (fun acc p => if p ∈ acc then acc else acc ++ [p]) []

theorem idxOf?_isSome_iff (p : List Char) (l : List (List Char)) :
    (idxOf? p l).isSome ↔ p ∈ l := by
  induction l with
  | nil => simp [idxOf?]
  | cons q rest ih =>
    rw [idxOf?]
    by_cases h : q = p
    · simp [h]
    · simp only [if_neg h, List.mem_cons]
      have hm : (Option.map (fun x => x + 1) (idxOf? p rest)).isSome =
          (idxOf? p rest).isSome := by
        cases idxOf? p rest <;> rfl
      rw [hm, ih]
      constructor
      · exact fun hm => Or.inr hm
      · rintro (hm | hm)
        · exact absurd hm.symm h
        · exact hm

theorem idxOf?_append_self (l : List (List Char)) (p : List Char) (h : p ∉ l) :
    idxOf? p (l ++ [p]) = some l.length := by
  induction l with
  | nil => simp [idxOf?]
  | cons q rest ih =>
    have hqp : q ≠ p := fun he => h (by simp [he])
    rw [List.cons_append, idxOf?, if_neg hqp, ih (fun hm => h (by simp [hm]))]
    simp

theorem idxOf?_append_ne (l : List (List Char)) (p q : List Char) (h : q ≠ p) :
    idxOf? q (l ++ [p]) = idxOf? q l := by
  induction l with
  | nil =>
    simp only [List.nil_append, idxOf?]
    rw [if_neg (fun he => h he.symm)]
    rfl
  | cons a rest ih =>
    rw [List.cons_append, idxOf?, idxOf?, ih]

/-- The single-path step lemma: `scanTrack` preserves the lookup/index
correspondence and performs first-seen insertion on `trackList`. -/
theorem scanTrack_inv (tf : Option (List Char)) (st : ScanState) (p : List Char)
    (hinv : ∀ q, mapGet st.trackPathIndex q = idxOf? q st.trackList) :
    ((scanTrack tf st p).trackList =
      if keepTrack tf p = true ∧ p ∉ st.trackList then st.trackList ++ [p]
      else st.trackList) ∧
    (∀ q, mapGet (scanTrack tf st p).trackPathIndex q =
      idxOf? q (scanTrack tf st p).trackList) := by
  rw [scanTrack]
  by_cases hk : keepTrack tf p = false
  · rw [if_pos hk]
    refine ⟨?_, hinv⟩
    rw [if_neg]
    rintro ⟨hk2, _⟩
    rw [hk2] at hk
    exact absurd hk (by simp)
  · rw [if_neg hk]
    by_cases hmem : (mapGet st.trackPathIndex p).isSome
    · rw [if_pos hmem]
      have hp : p ∈ st.trackList := by
        rw [hinv p, idxOf?_isSome_iff] at hmem
        exact hmem
      refine ⟨?_, hinv⟩
      rw [if_neg]
      rintro ⟨_, hnp⟩
      exact hnp hp
    · rw [if_neg hmem]
      have hp : p ∉ st.trackList := by
        rw [hinv p, idxOf?_isSome_iff] at hmem
        exact hmem
      have hk2 : keepTrack tf p = true := by
        cases hkk : keepTrack tf p
        · exact absurd hkk hk
        · rfl
      refine ⟨by rw [if_pos ⟨hk2, hp⟩], ?_⟩
      intro q
      by_cases hq : p = q
      · subst hq
        rw [mapGet, if_pos rfl, idxOf?_append_self _ _ hp]
      · rw [mapGet, if_neg hq, hinv q,
          idxOf?_append_ne _ _ _ (fun he => hq he.symm)]

/-- The path-list fold lemma behind C9. -/
theorem scanPaths_inv (tf : Option (List Char)) (paths : List (List Char)) :
    ∀ (st : ScanState),
    (∀ q, mapGet st.trackPathIndex q = idxOf? q st.trackList) →
    ((paths.foldl (scanTrack tf) st).trackList =
      (paths.filter (keepTrack tf)).foldl
        (fun acc p => if p ∈ acc then acc else acc ++ [p]) st.trackList) ∧
    (∀ q, mapGet (paths.foldl (scanTrack tf) st).trackPathIndex q =
      idxOf? q (paths.foldl (scanTrack tf) st).trackList) := by
  induction paths with
  | nil => exact fun st hinv => ⟨rfl, hinv⟩
  | cons p rest ih =>
    intro st hinv
    obtain ⟨hlist, hinv'⟩ := scanTrack_inv tf st p hinv
    obtain ⟨ihl, ihi⟩ := ih (scanTrack tf st p) hinv'
    rw [List.foldl_cons]
    refine ⟨?_, ihi⟩
    rw [ihl, List.filter_cons]
    by_cases hk : keepTrack tf p = true
    · rw [if_pos hk, List.foldl_cons]
      congr 1
      rw [hlist]
      by_cases hmem : p ∈ st.trackList
      · rw [if_neg (fun hc => hc.2 hmem), if_pos hmem]
      · rw [if_pos ⟨hk, hmem⟩, if_neg hmem]
    · rw [if_neg hk]
      congr 1
      rw [hlist, if_neg (fun hc => hk hc.1)]

theorem firstSeen_go_nodup (paths : List (List Char)) :
    ∀ acc : List (List Char), acc.Nodup →
    (paths.foldl (fun acc p => if p ∈ acc then acc else acc ++ [p]) acc).Nodup := by
  induction paths with
  | nil => exact fun acc h => h
  | cons p rest ih =>
    intro acc hacc
    rw [List.foldl_cons]
    by_cases hmem : p ∈ acc
    · rw [if_pos hmem]
      exact ih acc hacc
    · rw [if_neg hmem]
      exact ih (acc ++ [p]) (by simp [List.nodup_append, hacc, hmem])

/-! ## C9: one stable index per distinct path, first-seen order -/

/-- C9: after scanning any crate sequence (with any track filter), the
global track list is exactly the distinct filtered paths in first-seen
order (so each distinct path gets exactly one index and later sightings
insert nothing); the de-duplication map sends every path to the index of
its first occurrence in that list (none for unseen paths); and every
playlist's track references are exactly its paths mapped through those
indices — so two crates referencing the same path reference the same
index. -/
theorem c9_dedup_first_seen (tf : Option (List Char))
    (crates : List (List (List Char))) :
    (scanCrates tf crates).trackList =
      firstSeenList (crates.flatten.filter (keepTrack tf)) ∧
    (scanCrates tf crates).trackList.Nodup ∧
    (∀ p, mapGet (scanCrates tf crates).trackPathIndex p =
      idxOf? p (scanCrates tf crates).trackList) ∧
    (∀ tracks, playlistTracks (scanCrates tf crates).trackPathIndex tracks =
      tracks.filterMap (fun p => idxOf? p (scanCrates tf crates).trackList)) := by
  have hflat : scanCrates tf crates =
      crates.flatten.foldl (scanTrack tf) ⟨[], []⟩ := by
    rw [scanCrates, List.foldl_flatten]
    rfl
  obtain ⟨hlist, hinv⟩ := scanPaths_inv tf crates.flatten ⟨[], []⟩ (fun q => rfl)
  refine ⟨?_, ?_, ?_, ?_⟩
  · rw [hflat, hlist]
    rfl
  · rw [hflat, hlist]
    exact firstSeen_go_nodup _ [] List.nodup_nil
  · intro p
    rw [hflat]
    exact hinv p
  · intro tracks
    rw [playlistTracks, hflat]
    exact List.filterMap_congr (fun p _ => hinv p)

/-! ## cli: the playlist tree builder -/

/-- A child of a Rekordbox folder: either another folder — referenced
through its registry key, since the JS `folders` map and the parents'
`children` arrays share the folder objects by reference — or a playlist
(name and track indices), which is never registered. -/
inductive RBChild where
  | folder : List Char → RBChild
  | playlist : List Char → List Nat → RBChild
deriving DecidableEq, Repr

/-- A `RecordboxFolder`'s own data. -/
structure RBFolder where
  name : List Char
  children : List RBChild
deriving DecidableEq, Repr

/-- The `folders` registry (`Map<string, RecordboxFolder>`). -/
structure TreeState where
  folders : List (List Char × RBFolder)
deriving DecidableEq, Repr

/-- The registry key of the root folder. -/
def rootKey : List Char := "ROOT".toList

/-- The lookup scan behind `folders.get(key)`. -/
def treeGetGo : List (List Char × RBFolder) → List Char → Option RBFolder
  | [], _ => none
  | (k', f) :: rest, k => if k' = k then some f else treeGetGo rest k

/-- `folders.get(key)`. -/
def treeGet (st : TreeState) (k : List Char) : Option RBFolder :=
  treeGetGo st.folders k

/-- `folders.set(key, folder)` (only ever called for an absent key). -/
def treeSet (st : TreeState) (k : List Char) (f : RBFolder) : TreeState :=
  ⟨(k, f) :: st.folders⟩

/-- `folder.children.push(child)` on the folder registered at `k` (the
JS push mutates the shared folder object; here, its registry entry). -/
def treeModify (st : TreeState) (k : List Char) (c : RBChild) : TreeState :=
  ⟨st.folders.map fun kv =>
    if kv.1 = k then (kv.1, ⟨kv.2.name, kv.2.children ++ [c]⟩) else kv⟩

/-- `path.join('/')`. -/
def joinKey : List (List Char) → List Char
  | [] => []
  | [p] => p
  | p :: rest => p ++ '/' :: joinKey rest

/-- `getParentFolder(path)`: the empty path resolves to the `'ROOT'`
registry entry; otherwise the joined path is looked up, and on a miss a
new folder (named by the last segment) is registered under that key,
its parent is resolved recursively for the path minus its last segment,
and the new folder is pushed onto the parent's children.  The first
argument of the recursion is the path's length, which makes the
`dropLast` recursion structural; the `(0, _ :: _)` case is
unreachable. -/
def getParentFolder : TreeState → Nat → List (List Char) → TreeState × List Char
  | st, _, [] => (st, rootKey)
  | st, 0, _ :: _ => (st, rootKey)
  | st, fuel + 1, p0 :: prest =>
    match treeGet st (joinKey (p0 :: prest)) with
    | some _ => (st, joinKey (p0 :: prest))
    | none =>
      let st1 := treeSet st (joinKey (p0 :: prest)) ⟨(p0 :: prest).getLastD [], []⟩
      let r := getParentFolder st1 fuel (p0 :: prest).dropLast
      (treeModify r.1 r.2 (RBChild.folder (joinKey (p0 :: prest))), joinKey (p0 :: prest))

/-- One iteration of the `crateList.forEach`: split the crate name into
parent segments and leaf playlist name, resolve (creating on demand)
the parent folder, and push the playlist — its tracks mapped through
the de-duplication index — onto it.  (A crate name is never empty:
`split('%%')` always yields at least one segment.) -/
def processCrate (idx : List (List Char × Nat)) (st : TreeState)
    (crate : List (List Char) × List (List Char)) : TreeState :=
  match crate.1 with
  | [] => st
  | _ :: _ =>
    let parts := crate.1.dropLast
    let r := getParentFolder st parts.length parts
    treeModify r.1 r.2
      (RBChild.playlist (crate.1.getLastD []) (playlistTracks idx crate.2))

/-- The whole tree build: the registry starts with the root folder
under the `'ROOT'` key and every crate is placed in order. -/
def buildTree (idx : List (List Char × Nat))
    (crates : List (List (List Char) × List (List Char))) : TreeState :=
  crates.foldl (processCrate idx) ⟨[(rootKey, ⟨rootKey, []⟩)]⟩

/-! ## C10: one folder node per path prefix -/

/-- C10 fails on the code at two collision points of the string-keyed
registry.  First, a crate named `["ROOT", "X"]`: the prefix `["ROOT"]`
joins to the root sentinel key, so the playlist "X" is pushed directly
onto the root folder — the node for the empty prefix — and no separate
folder node for the distinct prefix `["ROOT"]` is ever created (the
root's children hold the playlist and no folder).  Second, crates
`[["A/B", "M1"], ["A", "B", "M2"]]`: the distinct prefixes `["A/B"]`
and `["A", "B"]` share the joined key "A/B", so both playlists land in
the single folder created for `["A/B"]`, and the intermediate folder
for `["A"]` is never created. -/
theorem c10_counterexample :
    buildTree [] [(["ROOT".toList, "X".toList], [])] =
      ⟨[(rootKey, ⟨rootKey, [RBChild.playlist "X".toList []]⟩)]⟩ ∧
    (∀ c ∈ [RBChild.playlist "X".toList ([] : List Nat)], ∀ k, c ≠ RBChild.folder k) ∧
    treeGet (buildTree [] [(["A/B".toList, "M1".toList], []),
        (["A".toList, "B".toList, "M2".toList], [])]) "A".toList = none ∧
    treeGet (buildTree [] [(["A/B".toList, "M1".toList], []),
        (["A".toList, "B".toList, "M2".toList], [])]) "A/B".toList =
      some ⟨"A/B".toList, [RBChild.playlist "M1".toList [],
        RBChild.playlist "M2".toList []]⟩ := by
  refine ⟨rfl, ?_, rfl, rfl⟩
  intro c hc k
  simp at hc
  subst hc
  simp

/-- The registry's key list. -/
def treeKeys (st : TreeState) : List (List Char) :=
  st.folders.map (·.1)

theorem treeGet_treeSet (st : TreeState) (k' : List Char) (f : RBFolder) (k : List Char) :
    treeGet (treeSet st k' f) k = if k' = k then some f else treeGet st k :=
  rfl

theorem treeGetGo_modify (l : List (List Char × RBFolder)) (k' : List Char) (c : RBChild)
    (k : List Char) :
    treeGetGo (l.map fun kv =>
        if kv.1 = k' then (kv.1, ⟨kv.2.name, kv.2.children ++ [c]⟩) else kv) k =
      if k = k' then (treeGetGo l k).map (fun f => ⟨f.name, f.children ++ [c]⟩)
      else treeGetGo l k := by
  induction l with
  | nil => by_cases h : k = k' <;> simp [treeGetGo, h]
  | cons a rest ih =>
    obtain ⟨ka, fa⟩ := a
    by_cases hak : ka = k'
    · subst hak
      have hhead : (if ((ka, fa) : List Char × RBFolder).1 = ka then
          ((ka, fa).1, (⟨(ka, fa).2.name, (ka, fa).2.children ++ [c]⟩ : RBFolder))
          else (ka, fa)) = (ka, ⟨fa.name, fa.children ++ [c]⟩) := if_pos rfl
      rw [List.map_cons, hhead, treeGetGo]
      by_cases hkk : ka = k
      · subst hkk
        rw [if_pos rfl, if_pos rfl, treeGetGo, if_pos rfl]
        rfl
      · rw [if_neg hkk, ih]
        have hcons : treeGetGo ((ka, fa) :: rest) k = treeGetGo rest k := by
          rw [treeGetGo, if_neg hkk]
        rw [hcons]
    · have hhead : (if ((ka, fa) : List Char × RBFolder).1 = k' then
          ((ka, fa).1, (⟨(ka, fa).2.name, (ka, fa).2.children ++ [c]⟩ : RBFolder))
          else (ka, fa)) = (ka, fa) := if_neg hak
      rw [List.map_cons, hhead, treeGetGo]
      by_cases hkk : ka = k
      · subst hkk
        rw [if_pos rfl, if_neg (fun he => hak he), treeGetGo, if_pos rfl]
      · rw [if_neg hkk, ih]
        have hcons : treeGetGo ((ka, fa) :: rest) k = treeGetGo rest k := by
          rw [treeGetGo, if_neg hkk]
        rw [hcons]

theorem treeGet_treeModify (st : TreeState) (k' : List Char) (c : RBChild) (k : List Char) :
    treeGet (treeModify st k' c) k =
      if k = k' then (treeGet st k).map (fun f => ⟨f.name, f.children ++ [c]⟩)
      else treeGet st k :=
  treeGetGo_modify st.folders k' c k

theorem treeKeys_treeModify (st : TreeState) (k' : List Char) (c : RBChild) :
    treeKeys (treeModify st k' c) = treeKeys st := by
  rw [treeKeys, treeModify, List.map_map, treeKeys]
  refine List.map_congr_left fun kv _ => ?_
  by_cases h : kv.1 = k' <;> simp [h, Function.comp]

theorem treeGetGo_eq_none_iff (l : List (List Char × RBFolder)) (k : List Char) :
    treeGetGo l k = none ↔ k ∉ l.map (·.1) := by
  induction l with
  | nil => simp [treeGetGo]
  | cons a rest ih =>
    obtain ⟨ka, fa⟩ := a
    rw [treeGetGo]
    by_cases h : ka = k
    · subst h
      rw [if_pos rfl]
      exact iff_of_false (fun hc => Option.noConfusion hc)
        (fun hn => hn (List.mem_cons_self _ _))
    · rw [if_neg h, ih]
      simp only [List.map_cons, List.mem_cons]
      constructor
      · rintro hn (he | hm)
        · exact h he.symm
        · exact hn hm
      · intro hn hm
        exact hn (Or.inr hm)

theorem treeGet_eq_none_iff (st : TreeState) (k : List Char) :
    treeGet st k = none ↔ k ∉ treeKeys st :=
  treeGetGo_eq_none_iff st.folders k

/-- Modelled from the spec: a path prefix has no slash inside its
segments (crate name segments come from a basename split, which cannot
contain a slash). -/
def sf (p : List (List Char)) : Prop :=
  ∀ s ∈ p, ('/' : Char) ∉ s

theorem splitChar_no_sep (sep : Char) (s : List Char) (h : sep ∉ s) :
    splitChar sep s = [s] := by
  induction s with
  | nil => rfl
  | cons c rest ih =>
    have hc : c ≠ sep := fun he => h (by simp [he])
    rw [splitChar, if_neg hc, ih (fun hm => h (by simp [hm]))]

theorem splitChar_append_sep (sep : Char) (a t : List Char) (h : sep ∉ a) :
    splitChar sep (a ++ sep :: t) = a :: splitChar sep t := by
  induction a with
  | nil => simp [splitChar]
  | cons c rest ih =>
    have hc : c ≠ sep := fun he => h (by simp [he])
    rw [List.cons_append, splitChar, if_neg hc, ih (fun hm => h (by simp [hm]))]

theorem splitChar_joinKey (p : List (List Char)) (hp : p ≠ []) (hsf : sf p) :
    splitChar '/' (joinKey p) = p := by
  induction p with
  | nil => exact absurd rfl hp
  | cons a rest ih =>
    match rest with
    | [] => exact splitChar_no_sep '/' a (hsf a (by simp))
    | b :: rest2 =>
      have hj : joinKey (a :: b :: rest2) = a ++ '/' :: joinKey (b :: rest2) := rfl
      rw [hj, splitChar_append_sep '/' a _ (hsf a (by simp)),
        ih (by simp) (fun s hs => hsf s (by simp [hs]))]

theorem joinKey_inj (p q : List (List Char)) (hp : p ≠ []) (hq : q ≠ [])
    (hsp : sf p) (hsq : sf q) (h : joinKey p = joinKey q) : p = q := by
  rw [← splitChar_joinKey p hp hsp, ← splitChar_joinKey q hq hsq, h]

/-- A key is registered. -/
def present (st : TreeState) (k : List Char) : Prop :=
  (treeGet st k).isSome

/-- Every registered slash-free prefix path has all its nonempty
prefixes registered (the registry is a trie over prefixes). -/
def ancClosed (st : TreeState) : Prop :=
  ∀ p, p ≠ [] → sf p → present st (joinKey p) →
    ∀ i, 1 ≤ i → i ≤ p.length → present st (joinKey (p.take i))

/-- `ancClosed` up to pending keys: strict extensions of `path` may
still miss their prefixes of length at most `path.length` (they are the
keys registered on the way down a `getParentFolder` recursion). -/
def ancExc (st : TreeState) (path : List (List Char)) : Prop :=
  ∀ p, p ≠ [] → sf p → present st (joinKey p) →
    ∀ i, 1 ≤ i → i ≤ p.length →
      present st (joinKey (p.take i)) ∨ (path <+: p ∧ path ≠ p ∧ i ≤ path.length)

theorem getParentFolder_ret (st : TreeState) (path : List (List Char)) (h : path ≠ []) :
    (getParentFolder st path.length path).2 = joinKey path := by
  match path, h with
  | a :: l, _ =>
    rw [List.length_cons, getParentFolder]
    cases hget : treeGet st (joinKey (a :: l)) <;> simp [hget]

theorem getParentFolder_mono (n : Nat) : ∀ (path : List (List Char)) (st : TreeState),
    path.length = n →
    ((∀ k, present st k → present (getParentFolder st n path).1 k) ∧
     (∀ k f c, treeGet st k = some f → c ∈ f.children →
       ∃ f2, treeGet (getParentFolder st n path).1 k = some f2 ∧ c ∈ f2.children) ∧
     ((treeKeys st).Nodup → (treeKeys (getParentFolder st n path).1).Nodup)) := by
  induction n with
  | zero =>
    intro path st hlen
    have hp : path = [] := List.length_eq_zero.mp hlen
    subst hp
    exact ⟨fun k h => h, fun k f c hf hc => ⟨f, hf, hc⟩, fun h => h⟩
  | succ nn ih =>
    intro path st hlen
    match path, hlen with
    | a :: l, hlen =>
      have hlen' : l.length = nn := by simpa using hlen
      rw [getParentFolder]
      cases hget : treeGet st (joinKey (a :: l)) with
      | some f0 =>
        exact ⟨fun k h => h, fun k f c hf hc => ⟨f, hf, hc⟩, fun h => h⟩
      | none =>
        have hdl : (a :: l).dropLast.length = nn := by
          rw [List.length_dropLast]
          simpa using hlen
        obtain ⟨ihp, ihm, ihn⟩ :=
          ih (a :: l).dropLast
            (treeSet st (joinKey (a :: l)) ⟨(a :: l).getLastD [], []⟩) hdl
        refine ⟨?_, ?_, ?_⟩
        · intro k hk
          have h1 : present (treeSet st (joinKey (a :: l))
              ⟨(a :: l).getLastD [], []⟩) k := by
            rw [present, treeGet_treeSet]
            by_cases he : joinKey (a :: l) = k
            · simp [he]
            · rw [if_neg he]
              exact hk
          have h2 := ihp k h1
          rw [present, treeGet_treeModify]
          by_cases he : k = (getParentFolder (treeSet st (joinKey (a :: l))
              ⟨(a :: l).getLastD [], []⟩) nn (a :: l).dropLast).2
          · rw [if_pos he, Option.isSome_map']
            exact h2
          · rw [if_neg he]
            exact h2
        · intro k f c hf hc
          have hne : joinKey (a :: l) ≠ k := fun he => by
            rw [he, hf] at hget
            cases hget
          have h1 : treeGet (treeSet st (joinKey (a :: l))
              ⟨(a :: l).getLastD [], []⟩) k = some f := by
            rw [treeGet_treeSet, if_neg hne]
            exact hf
          obtain ⟨f2, hf2, hc2⟩ := ihm k f c h1 hc
          rw [treeGet_treeModify]
          by_cases he : k = (getParentFolder (treeSet st (joinKey (a :: l))
              ⟨(a :: l).getLastD [], []⟩) nn (a :: l).dropLast).2
          · refine ⟨⟨f2.name, f2.children ++
              [RBChild.folder (joinKey (a :: l))]⟩, ?_, ?_⟩
            · rw [if_pos he, hf2]
              rfl
            · exact List.mem_append_left _ hc2
          · exact ⟨f2, by rw [if_neg he]; exact hf2, hc2⟩
        · intro hnd
          have h1 : (treeKeys (treeSet st (joinKey (a :: l))
              ⟨(a :: l).getLastD [], []⟩)).Nodup := by
            have hmem : joinKey (a :: l) ∉ treeKeys st :=
              (treeGet_eq_none_iff st _).mp hget
            exact List.Nodup.cons hmem hnd
          have h2 := ihn h1
          rw [treeKeys_treeModify]
          exact h2

theorem present_treeModify (st : TreeState) (k' : List Char) (c : RBChild) (k : List Char) :
    present (treeModify st k' c) k ↔ present st k := by
  rw [present, present, treeGet_treeModify]
  by_cases he : k = k'
  · rw [if_pos he, Option.isSome_map']
  · rw [if_neg he]

theorem prefix_take_eq {α : Type} (p q : List α) (h : p <+: q) (i : Nat)
    (hi : i ≤ p.length) : q.take i = p.take i := by
  obtain ⟨t, rfl⟩ := h
  exact List.take_append_of_le_length hi

theorem getParentFolder_anc (n : Nat) : ∀ (path : List (List Char)) (st : TreeState),
    path.length = n → sf path →
    present st rootKey → ancExc st path →
    (ancClosed (getParentFolder st n path).1 ∧
     (∀ i, 1 ≤ i → i ≤ n → present (getParentFolder st n path).1 (joinKey (path.take i)))) := by
  induction n with
  | zero =>
    intro path st hlen _ _ hexc
    have hp : path = [] := List.length_eq_zero.mp hlen
    subst hp
    refine ⟨?_, fun i h1 h0 => absurd (Nat.le_trans h1 h0) (by omega)⟩
    intro p hp hsfp hpres i h1 hi
    rcases hexc p hp hsfp hpres i h1 hi with h | ⟨_, _, hle⟩
    · exact h
    · exact absurd (Nat.le_trans h1 hle) (by omega)
  | succ nn ih =>
    intro path st hlen hsf hroot hexc
    match path, hlen, hsf with
    | a :: l, hlen, hsf =>
      have hlen' : (a :: l).length = nn + 1 := hlen
      have hne : (a :: l) ≠ ([] : List (List Char)) := by simp
      rw [getParentFolder]
      cases hget : treeGet st (joinKey (a :: l)) with
      | some f0 =>
        have hself : ∀ i, 1 ≤ i → i ≤ nn + 1 →
            present st (joinKey ((a :: l).take i)) := by
          intro i h1 hi
          rcases hexc (a :: l) hne hsf (by rw [present, hget]; rfl) i h1
            (by omega) with h | ⟨_, hne2, _⟩
          · exact h
          · exact absurd rfl hne2
        refine ⟨?_, hself⟩
        intro p hp hsfp hpres i h1 hi
        rcases hexc p hp hsfp hpres i h1 hi with h | ⟨hpre, _, hle⟩
        · exact h
        · rw [prefix_take_eq (a :: l) p hpre i (by omega)]
          exact hself i h1 (by omega)
      | none =>
        have hdl : (a :: l).dropLast.length = nn := by
          rw [List.length_dropLast]
          simpa using hlen
        have hsfdl : sf (a :: l).dropLast :=
          fun s hs => hsf s ((List.dropLast_prefix (a :: l)).subset hs)
        have hdlpre : (a :: l).dropLast <+: (a :: l) := List.dropLast_prefix _
        have hdlne : (a :: l).dropLast ≠ (a :: l) := fun he => by
          have := congrArg List.length he
          rw [hdl, hlen'] at this
          omega
        set st1 := treeSet st (joinKey (a :: l)) ⟨(a :: l).getLastD [], []⟩ with hst1
        have hpres1 : present st1 (joinKey (a :: l)) := by
          rw [present, hst1, treeGet_treeSet, if_pos rfl]
          rfl
        have hmono1 : ∀ k, present st k → present st1 k := by
          intro k hk
          rw [present, hst1, treeGet_treeSet]
          by_cases he : joinKey (a :: l) = k
          · simp [he]
          · rw [if_neg he]
            exact hk
        have hroot1 : present st1 rootKey := hmono1 _ hroot
        have htake_dl : ∀ i, i ≤ nn → (a :: l).take i = (a :: l).dropLast.take i := by
          intro i hi
          exact prefix_take_eq (a :: l).dropLast (a :: l) hdlpre i (by omega)
        have hexc1 : ancExc st1 (a :: l).dropLast := by
          intro p hp hsfp hpres i h1 hi
          rw [present, hst1, treeGet_treeSet] at hpres
          by_cases he : joinKey (a :: l) = joinKey p
          · have hpe : p = a :: l := (joinKey_inj (a :: l) p hne hp hsf hsfp he).symm
            subst hpe
            by_cases hitop : i ≤ nn
            · exact Or.inr ⟨hdlpre, hdlne, by omega⟩
            · have hieq : i = nn + 1 := by
                rw [hlen'] at hi
                omega
              rw [hieq, show (nn + 1 : Nat) = (a :: l).length from hlen'.symm,
                List.take_length]
              exact Or.inl hpres1
          · rw [if_neg he] at hpres
            rcases hexc p hp hsfp hpres i h1 hi with h | ⟨hpre, hnep, hle⟩
            · exact Or.inl (hmono1 _ h)
            · by_cases hitop : i ≤ nn
              · refine Or.inr ⟨hdlpre.trans hpre, ?_, by omega⟩
                intro hx
                have := hpre.length_le
                have := congrArg List.length hx
                rw [hdl] at this
                omega
              · have hieq : i = nn + 1 := by
                  rw [hlen'] at hle
                  omega
                have hto : p.take i = a :: l := by
                  rw [prefix_take_eq (a :: l) p hpre i (by rw [hlen']; omega),
                    hieq, show (nn + 1 : Nat) = (a :: l).length from hlen'.symm,
                    List.take_length]
                rw [hto]
                exact Or.inl hpres1
        obtain ⟨ihanc, ihpre⟩ := ih (a :: l).dropLast st1 hdl hsfdl hroot1 hexc1
        obtain ⟨monop, _, _⟩ := getParentFolder_mono nn (a :: l).dropLast st1 hdl
        refine ⟨?_, ?_⟩
        · intro p hp hsfp hpres i h1 hi
          rw [present_treeModify] at hpres ⊢
          exact ihanc p hp hsfp hpres i h1 hi
        · intro i h1 hi
          rw [present_treeModify]
          by_cases hitop : i ≤ nn
          · rw [htake_dl i hitop]
            exact ihpre i h1 hitop
          · have hieq : i = nn + 1 := by omega
            rw [hieq, show (nn + 1 : Nat) = (a :: l).length from hlen'.symm,
              List.take_length]
            exact monop _ hpres1

/-- The build invariant: root registered, registry ancestor-closed,
keys unique. -/
def treeInv (st : TreeState) : Prop :=
  present st rootKey ∧ ancClosed st ∧ (treeKeys st).Nodup

theorem processCrate_facts (idx : List (List Char × Nat)) (st : TreeState)
    (c : List (List Char) × List (List Char)) (hinv : treeInv st)
    (hc1 : c.1 ≠ []) (hsf : sf c.1) :
    treeInv (processCrate idx st c) ∧
    (∀ k, present st k → present (processCrate idx st c) k) ∧
    (∀ k f ch, treeGet st k = some f → ch ∈ f.children →
      ∃ f2, treeGet (processCrate idx st c) k = some f2 ∧ ch ∈ f2.children) ∧
    (∀ i, 1 ≤ i → i + 1 ≤ c.1.length →
      present (processCrate idx st c) (joinKey (c.1.take i))) ∧
    (∃ f2, treeGet (processCrate idx st c)
        (if c.1.dropLast = [] then rootKey else joinKey c.1.dropLast) = some f2 ∧
      RBChild.playlist (c.1.getLastD []) (playlistTracks idx c.2) ∈ f2.children) := by
  obtain ⟨hroot, hanc, hnd⟩ := hinv
  obtain ⟨c1, c2⟩ := c
  match c1, hc1 with
  | a :: l, _ =>
    simp only [processCrate]
    have hsfp : sf (a :: l).dropLast :=
      fun s hs => hsf s ((List.dropLast_prefix (a :: l)).subset hs)
    have hexc : ancExc st (a :: l).dropLast := by
      intro p hp hsfpp hpres i h1 hi
      exact Or.inl (hanc p hp hsfpp hpres i h1 hi)
    obtain ⟨ganc, gpre⟩ :=
      getParentFolder_anc (a :: l).dropLast.length (a :: l).dropLast st rfl hsfp hroot hexc
    obtain ⟨gmonop, gmonom, gmonon⟩ :=
      getParentFolder_mono (a :: l).dropLast.length (a :: l).dropLast st rfl
    have hdest : present
        (getParentFolder st (a :: l).dropLast.length (a :: l).dropLast).1
        (getParentFolder st (a :: l).dropLast.length (a :: l).dropLast).2 := by
      cases hq : (a :: l).dropLast with
      | nil => exact hroot
      | cons b bs =>
        rw [getParentFolder_ret st (b :: bs) (by simp)]
        have h2 := gpre (a :: l).dropLast.length (by rw [hq]; simp) (le_refl _)
        rw [List.take_length] at h2
        rw [hq] at h2
        exact h2
    have hdesteq : (if (a :: l).dropLast = [] then rootKey else joinKey (a :: l).dropLast) =
        (getParentFolder st (a :: l).dropLast.length (a :: l).dropLast).2 := by
      cases hq : (a :: l).dropLast with
      | nil => rfl
      | cons b bs =>
        rw [if_neg (by simp)]
        exact (getParentFolder_ret st (b :: bs) (by simp)).symm
    rw [present] at hdest
    obtain ⟨fd, hfd⟩ := Option.isSome_iff_exists.mp hdest
    refine ⟨⟨?_, ?_, ?_⟩, ?_, ?_, ?_, ?_⟩
    · rw [present_treeModify]
      exact gmonop _ hroot
    · intro p hp hsfpp hpres i h1 hi
      rw [present_treeModify] at hpres ⊢
      exact ganc p hp hsfpp hpres i h1 hi
    · rw [treeKeys_treeModify]
      exact gmonon hnd
    · intro k hk
      rw [present_treeModify]
      exact gmonop k hk
    · intro k f ch hf hc
      obtain ⟨f2, hf2, hc2⟩ := gmonom k f ch hf hc
      rw [treeGet_treeModify]
      by_cases he : k =
          (getParentFolder st (a :: l).dropLast.length (a :: l).dropLast).2
      · refine ⟨⟨f2.name, f2.children ++
          [RBChild.playlist ((a :: l).getLastD []) (playlistTracks idx c2)]⟩, ?_, ?_⟩
        · rw [if_pos he, hf2]
          rfl
        · exact List.mem_append_left _ hc2
      · exact ⟨f2, by rw [if_neg he]; exact hf2, hc2⟩
    · intro i h1 hi
      rw [present_treeModify]
      have hip : i ≤ (a :: l).dropLast.length := by
        rw [List.length_dropLast]
        simp only [List.length_cons] at hi ⊢
        omega
      have hteq : (a :: l).take i = (a :: l).dropLast.take i :=
        prefix_take_eq (a :: l).dropLast (a :: l) (List.dropLast_prefix _) i hip
      rw [hteq]
      exact gpre i h1 hip
    · rw [hdesteq, treeGet_treeModify, if_pos rfl, hfd]
      exact ⟨_, rfl, List.mem_append_right _ (by simp)⟩

theorem buildTree_go (idx : List (List Char × Nat)) :
    ∀ (crates : List (List (List Char) × List (List Char))) (st : TreeState),
    treeInv st → (∀ c ∈ crates, c.1 ≠ [] ∧ sf c.1) →
    treeInv (crates.foldl (processCrate idx) st) ∧
    (∀ k, present st k → present (crates.foldl (processCrate idx) st) k) ∧
    (∀ k f ch, treeGet st k = some f → ch ∈ f.children →
      ∃ f2, treeGet (crates.foldl (processCrate idx) st) k = some f2 ∧ ch ∈ f2.children) ∧
    (∀ c ∈ crates,
      (∀ i, 1 ≤ i → i + 1 ≤ c.1.length →
        present (crates.foldl (processCrate idx) st) (joinKey (c.1.take i))) ∧
      (∃ f2, treeGet (crates.foldl (processCrate idx) st)
          (if c.1.dropLast = [] then rootKey else joinKey c.1.dropLast) = some f2 ∧
        RBChild.playlist (c.1.getLastD []) (playlistTracks idx c.2) ∈ f2.children)) := by
  intro crates
  induction crates with
  | nil =>
    intro st hinv _
    exact ⟨hinv, fun k h => h, fun k f ch hf hc => ⟨f, hf, hc⟩, by simp⟩
  | cons c cs ih =>
    intro st hinv hwf
    obtain ⟨hc1, hcsf⟩ := hwf c (by simp)
    obtain ⟨pinv, pmonop, pmonom, ppre,ppl⟩ := processCrate_facts idx st c hinv hc1 hcsf
    obtain ⟨iinv, imonop, imonom, iper⟩ :=
      ih (processCrate idx st c) pinv (fun x hx => hwf x (by simp [hx]))
    rw [List.foldl_cons]
    refine ⟨iinv, ?_, ?_, ?_⟩
    · intro k hk
      exact imonop k (pmonop k hk)
    · intro k f ch hf hc
      obtain ⟨f2, hf2, hc2⟩ := pmonom k f ch hf hc
      exact imonom k f2 ch hf2 hc2
    · intro x hx
      rcases List.mem_cons.mp hx with hx | hx
      · subst hx
        constructor
        · intro i h1 hi
          exact imonop _ (ppre i h1 hi)
        · obtain ⟨f2, hf2, hc2⟩ := ppl
          exact imonom _ f2 _ hf2 hc2
      · exact iper x hx

/-- C10 amended: for every crate sequence whose names are nonempty,
whose segments are slash-free (as basename-derived segments always
are), and whose multi-segment names do not start with the literal
registry sentinel segment "ROOT" (which would collide with the root's
key and resolve to the root folder itself, as the counterexample
shows), the built registry has pairwise-distinct keys (each prefix is
represented by at most one folder node, so a shared prefix is one
shared node created once), the root is registered, every proper prefix
of every crate's name has a registered folder node (intermediate
folders are created on demand), and every crate's playlist — named by
its last segment, tracks mapped through the de-duplication index — is
a child of the folder registered for its parent prefix (the root for
single-segment names). -/
theorem c10_one_folder_per_path (idx : List (List Char × Nat))
    (crates : List (List (List Char) × List (List Char)))
    (hwf : ∀ c ∈ crates, c.1 ≠ [] ∧ sf c.1 ∧
      (2 ≤ c.1.length → c.1.headD [] ≠ rootKey)) :
    (treeKeys (buildTree idx crates)).Nodup ∧
    present (buildTree idx crates) rootKey ∧
    (∀ c ∈ crates, ∀ i, 1 ≤ i → i + 1 ≤ c.1.length →
      present (buildTree idx crates) (joinKey (c.1.take i))) ∧
    (∀ c ∈ crates, ∃ f, treeGet (buildTree idx crates)
        (if c.1.dropLast = [] then rootKey else joinKey c.1.dropLast) = some f ∧
      RBChild.playlist (c.1.getLastD []) (playlistTracks idx c.2) ∈ f.children) := by
  have hinv0 : treeInv ⟨[(rootKey, ⟨rootKey, []⟩)]⟩ := by
    refine ⟨by rw [present, treeGet, treeGetGo, if_pos rfl]; rfl, ?_, by simp [treeKeys]⟩
    intro p hp hsfp hpres i h1 hi
    rw [present, treeGet, treeGetGo] at hpres
    by_cases he : rootKey = joinKey p
    · have hpr : p = [rootKey] := by
        have h2 : joinKey [rootKey] = joinKey p := he
        exact (joinKey_inj [rootKey] p (by simp) hp
          (by intro s hs; simp at hs; subst hs; decide) hsfp h2).symm
      subst hpr
      simp only [List.length_cons, List.length_nil] at hi
      have hieq : i = 1 := by omega
      subst hieq
      rw [present, treeGet, treeGetGo]
      rw [show List.take 1 [rootKey] = [rootKey] from rfl]
      rw [if_pos he]
      rfl
    · rw [if_neg he, treeGetGo] at hpres
      cases hpres
  obtain ⟨binv, _, _, bper⟩ :=
    buildTree_go idx crates ⟨[(rootKey, ⟨rootKey, []⟩)]⟩ hinv0
      (fun c hc => ⟨(hwf c hc).1, (hwf c hc).2.1⟩)
  exact ⟨binv.2.2, binv.1,
    fun c hc => (bper c hc).1,
    fun c hc => (bper c hc).2⟩

/-- The spec's tree example: crates `["A", "B", "Mix1"]` and
`["A", "C", "Mix2"]` (no tracks). -/
def c10ex : List (List (List Char) × List (List Char)) :=
  [(["A".toList, "B".toList, "Mix1".toList], []),
   (["A".toList, "C".toList, "Mix2".toList], [])]

/-- Witness for the amended C10: on the spec's example the build yields
one root, one folder "A" (created once, child of the root), folders "B"
and "C" under "A", each holding its playlist; the keys are distinct,
the shared prefix key "A" is registered, and "Mix1" hangs off the
folder for its parent prefix. -/
theorem c10_witness :
    (∀ c ∈ c10ex, c.1 ≠ [] ∧ sf c.1 ∧ (2 ≤ c.1.length → c.1.headD [] ≠ rootKey)) ∧
    buildTree [] c10ex =
      ⟨[("A/C".toList, ⟨"C".toList, [RBChild.playlist "Mix2".toList []]⟩),
        ("A".toList, ⟨"A".toList,
          [RBChild.folder "A/B".toList, RBChild.folder "A/C".toList]⟩),
        ("A/B".toList, ⟨"B".toList, [RBChild.playlist "Mix1".toList []]⟩),
        (rootKey, ⟨rootKey, [RBChild.folder "A".toList]⟩)]⟩ ∧
    (treeKeys (buildTree [] c10ex)).Nodup ∧
    present (buildTree [] c10ex) (joinKey ["A".toList]) ∧
    (∃ f, treeGet (buildTree [] c10ex)
        (if (["A".toList, "B".toList, "Mix1".toList] : List (List Char)).dropLast = []
         then rootKey
         else joinKey (["A".toList, "B".toList, "Mix1".toList] :
           List (List Char)).dropLast) = some f ∧
      RBChild.playlist "Mix1".toList (playlistTracks [] []) ∈ f.children) := by
  have hwf : ∀ c ∈ c10ex, c.1 ≠ [] ∧ sf c.1 ∧
      (2 ≤ c.1.length → c.1.headD [] ≠ rootKey) := by
    intro c hc
    simp only [c10ex, List.mem_cons, List.not_mem_nil, or_false] at hc
    rcases hc with rfl | rfl
    · exact ⟨by decide, by unfold sf; decide, by decide⟩
    · exact ⟨by decide, by unfold sf; decide, by decide⟩
  refine ⟨hwf, rfl, (c10_one_folder_per_path [] c10ex hwf).1, ?_, ?_⟩
  · exact (c10_one_folder_per_path [] c10ex hwf).2.2.1
      (["A".toList, "B".toList, "Mix1".toList], ([] : List (List Char)))
      (by simp [c10ex]) 1 (by decide) (by decide)
  · exact (c10_one_folder_per_path [] c10ex hwf).2.2.2
      (["A".toList, "B".toList, "Mix1".toList], ([] : List (List Char)))
      (by simp [c10ex])

end S2R